import Mathlib

/-!
Verification development for the launcher's Content Delivery and Patch Engine
(CDPE): a shallow embedding, in Lean 4, of the download manager, the
content-addressed cache, the retry harness, the version-discovery probe, the
binary string patcher and the patch orchestrator, together with theorems
settling the behavioural claims about those components.

Conventions of the embedding:
* Byte buffers (Node `Buffer`) are `List Nat` with every element < 256.
* JavaScript strings are `List Nat` of UTF-16 code units (`charCodeAt` view);
  URL-shaped strings that are only concatenated are kept as Lean `String`.
* The file system is an association list from path to byte contents.
* JavaScript `Map` objects are association lists preserving insertion order,
  with `set` replacing in place, as `Map.prototype.set` does.
* Cryptographic digests are abstracted: components take the digest function
  as an explicit parameter, since only equality of digests is ever inspected.
* Asynchronous effects (network, child processes) are passed in as explicit
  outcome environments; each `async` source function becomes a pure function
  of its environment.
-/

namespace CDPE

/-- Byte buffers: Node `Buffer` contents as a list of bytes. -/
abbrev Bytes := List Nat

/-- JavaScript strings viewed as their UTF-16 code-unit sequences. -/
abbrev JsStr := List Nat

/-- Code units of a Lean string literal, for writing `JsStr` values. -/
def jsStr (s : String) : JsStr :=
  s.toList.map Char.toNat

/-- File system: association list from absolute path to file contents. -/
abbrev Fs := List (String × Bytes)

/-- Read a file: `some` contents when the path exists, else `none`. -/
def fsRead (fs : Fs) (p : String) : Option Bytes :=
  (fs.find? (fun e => e.1 = p)).map (·.2)

/-- `fs.writeFile` / rename-into-place: replace or create the file at `p`. -/
def fsWrite (fs : Fs) (p : String) (b : Bytes) : Fs :=
  if fs.any (fun e => e.1 = p) then
    fs.map (fun e => if e.1 = p then (p, b) else e)
  else
    fs ++ [(p, b)]

/-- `fs.unlink` with errors swallowed: drop the file at `p` if present. -/
def fsRemove (fs : Fs) (p : String) : Fs :=
  fs.filter (fun e => ¬ e.1 = p)

/-- JavaScript `Map.prototype.get` on an insertion-ordered association list. -/
def jsMapGet {β : Type} (m : List (String × β)) (k : String) : Option β :=
  (m.find? (fun e => e.1 = k)).map (·.2)

/-- JavaScript `Map.prototype.set`: replace in place if the key is present
(keeping its position), otherwise append. -/
def jsMapSet {β : Type} (m : List (String × β)) (k : String) (v : β) :
    List (String × β) :=
  if m.any (fun e => e.1 = k) then
    m.map (fun e => if e.1 = k then (k, v) else e)
  else
    m ++ [(k, v)]

/-- JavaScript `Map.prototype.delete`: remove the key if present. -/
def jsMapDelete {β : Type} (m : List (String × β)) (k : String) :
    List (String × β) :=
  m.filter (fun e => ¬ e.1 = k)

/-- Does `pat` occur in `buf` starting exactly at index `i` (fully inside)? -/
def matchAt (buf pat : Bytes) (i : Nat) : Bool :=
  decide (i + pat.length ≤ buf.length) &&
    (List.range pat.length).all (fun j => buf.getD (i + j) 0 == pat.getD j 0)

/-- `Buffer.prototype.indexOf(pat, pos)`: the least index `≥ pos` where `pat`
occurs fully inside `buf`, or `none`. -/
def indexOfFrom (buf pat : Bytes) (pos : Nat) : Option Nat :=
  ((List.range (buf.length + 1)).filter
    (fun i => decide (pos ≤ i) && matchAt buf pat i)).head?

/-- One step of the scan loop of `getPatternIndices`, with fuel: starting at
`pos`, collect every occurrence of `pat`, advancing by one past each match. -/
def getPatternIndicesGo (buf pat : Bytes) : Nat → Nat → List Nat
  | _, 0 => []
  | pos, fuel + 1 =>
    if pos < buf.length then
      match indexOfFrom buf pat pos with
      | none => []
      | some i => i :: getPatternIndicesGo buf pat (i + 1) fuel
    else []

/-- `getPatternIndices(buffer, pattern)` from the two patcher services: all
match positions of `pattern` in `buffer`, left to right, advancing one byte
past each match, so overlapping matches are all reported. -/
def getPatternIndices (buf pat : Bytes) : List Nat :=
  getPatternIndicesGo buf pat 0 (buf.length + 1)

/-- `src.copy(target, tstart)` for Node buffers: overwrite `target` from index
`tstart` with the bytes of `src`, truncating at the end of `target` (a copy
never grows the target). -/
def bufCopy (src target : Bytes) (tstart : Nat) : Bytes :=
  target.mapIdx (fun i b =>
    if tstart ≤ i ∧ i - tstart < src.length then src.getD (i - tstart) 0 else b)

/-- `buf[i] = v` for a Node buffer: byte assignment truncates the value to
eight bits and is a no-op out of range. -/
def setByte (buf : Bytes) (i v : Nat) : Bytes :=
  buf.mapIdx (fun j b => if j = i then v % 256 else b)

/-- Spec-side splice, from the spec's wording of a replacement write: the
bytes before `p`, then `data` truncated at the end of the buffer, then the
bytes after the written span; the buffer never grows. -/
def spliceBytes (buf : Bytes) (p : Nat) (data : Bytes) : Bytes :=
  buf.take p ++ (data.take (buf.length - p) ++ buf.drop (p + data.length))

/-- Spec-side single-byte store: the spec's "set the one trailing byte to the
char code modulo 256", dropped when out of range. -/
def storeByte (buf : Bytes) (i v : Nat) : Bytes :=
  buf.take i ++ ((if i < buf.length then [v % 256] else []) ++ buf.drop (i + 1))

/-- One candidate position of the spec's description of a smart-domain pass:
skip it when there is no room for the trailing byte; otherwise replace exactly
when the old string is non-empty and the single byte of the current buffer at
`pos + stubLen` equals `charCodeAt` of the old string's final character; a
replacement splices the encoded new stub over the match and stores the new
final char code into that single byte, recording the position. -/
def smartDomainStep (stubNew : Bytes) (oldEnd : Option Nat)
    (newEnd stubLen : Nat) (acc : Bytes × List Nat) (pos : Nat) :
    Bytes × List Nat :=
  match oldEnd with
  | none => acc
  | some c =>
    if pos + stubLen + 1 ≤ acc.1.length ∧ acc.1.getD (pos + stubLen) 0 = c then
      (storeByte (spliceBytes acc.1 pos stubNew) (pos + stubLen) newEnd,
        acc.2 ++ [pos])
    else acc

/-- The spec's description of a whole smart-domain pass, written from its
words: fold left over the stub occurrences found in the ORIGINAL buffer,
carrying the partially rewritten buffer and the replaced positions through
`smartDomainStep`. -/
def smartDomainSpec (stubNew : Bytes) (oldEnd : Option Nat)
    (newEnd stubLen : Nat) (buf : Bytes) (ps : List Nat) : Bytes × List Nat :=
  ps.foldl (smartDomainStep stubNew oldEnd newEnd stubLen) (buf, [])

/-- `encodeUtf16(str)` from `GamePatcher` and `ServerPatcher`: each UTF-16
code unit is written little-endian as two bytes (`writeUInt16LE`). -/
def encodeUtf16 (s : JsStr) : Bytes :=
  s.flatMap (fun c => [c % 256, c / 256 % 256])

/-- UTF-8 bytes of a single Unicode code point. -/
def utf8Char (c : Nat) : Bytes :=
  if c < 0x80 then [c]
  else if c < 0x800 then [0xC0 + c / 64, 0x80 + c % 64]
  else if c < 0x10000 then
    [0xE0 + c / 4096, 0x80 + c / 64 % 64, 0x80 + c % 64]
  else
    [0xF0 + c / 262144, 0x80 + c / 4096 % 64, 0x80 + c / 64 % 64, 0x80 + c % 64]

/-- `Buffer.from(str, 'utf8')` (`stringToUtf8` in the patchers): encode the
UTF-16 code-unit sequence as UTF-8, combining surrogate pairs and replacing
unpaired surrogates with U+FFFD, as Node does. -/
def stringToUtf8 : JsStr → Bytes
  | [] => []
  | [u] =>
    if (0xD800 ≤ u ∧ u ≤ 0xDBFF) ∨ (0xDC00 ≤ u ∧ u ≤ 0xDFFF) then utf8Char 0xFFFD
    else utf8Char u
  | u :: l :: rest2 =>
    if 0xD800 ≤ u ∧ u ≤ 0xDBFF then
      if 0xDC00 ≤ l ∧ l ≤ 0xDFFF then
        utf8Char (0x10000 + (u - 0xD800) * 1024 + (l - 0xDC00)) ++
          stringToUtf8 rest2
      else utf8Char 0xFFFD ++ stringToUtf8 (l :: rest2)
    else if 0xDC00 ≤ u ∧ u ≤ 0xDFFF then utf8Char 0xFFFD ++ stringToUtf8 (l :: rest2)
    else utf8Char u ++ stringToUtf8 (l :: rest2)

/-- Kind tag of a replacement rule (`'simple' | 'smart_domain'`). -/
inductive RuleKind : Type
  | simple : RuleKind
  | smartDomain : RuleKind
deriving DecidableEq

/-- `ReplacementRule` from `serverPatcher.ts` (the inline literal type of
`gamePatcher.ts` is identical): a kind tag plus the old and new strings. -/
structure ReplacementRule : Type where
  kind : RuleKind
  oldVal : JsStr
  newVal : JsStr
deriving DecidableEq

/-- The per-match loop body of a `simple` rule: overwrite each precomputed
match position with the encoded new string. Returns the final buffer and the
positions replaced (every match, in order). -/
def applySimpleGo (newBytes : Bytes) (buf : Bytes) : List Nat → Bytes × List Nat
  | [] => (buf, [])
  | pos :: rest =>
    let out := applySimpleGo newBytes (bufCopy newBytes buf pos) rest
    (out.1, pos :: out.2)

/-- The per-match loop body of a `smart_domain` rule: at each precomputed stub
match, skip if the trailing byte slot falls outside the buffer, otherwise
compare that single byte with the final char code of the old string; on a hit
overwrite the stub and assign the new final char code into the single trailing
byte. Returns the final buffer and the positions actually replaced. -/
def applySmartGo (newStub : Bytes) (oldEnd : Option Nat) (newEndVal stubLen : Nat)
    (buf : Bytes) : List Nat → Bytes × List Nat
  | [] => (buf, [])
  | pos :: rest =>
    if pos + stubLen + 1 > buf.length then
      applySmartGo newStub oldEnd newEndVal stubLen buf rest
    else
      match oldEnd with
      | some c =>
        if buf.getD (pos + stubLen) 0 == c then
          let buf2 := setByte (bufCopy newStub buf pos) (pos + stubLen) newEndVal
          let out := applySmartGo newStub oldEnd newEndVal stubLen buf2 rest
          (out.1, pos :: out.2)
        else applySmartGo newStub oldEnd newEndVal stubLen buf rest
      | none => applySmartGo newStub oldEnd newEndVal stubLen buf rest

/-- One iteration of the rule loop of `replaceBinaryStrings`, for a given
encoder `enc`. `oldVal.slice(0, -1)` is `dropLast`; `charCodeAt(length - 1)`
is `getLast?` (`NaN` on the empty string compares unequal to every byte, and
assigning it into a buffer stores `0`). -/
def applyRuleCore (enc : JsStr → Bytes) (buf : Bytes) (r : ReplacementRule) :
    Bytes × List Nat :=
  match r.kind with
  | .simple =>
    let oldBytes := enc r.oldVal
    let newBytes := enc r.newVal
    applySimpleGo newBytes buf (getPatternIndices buf oldBytes)
  | .smartDomain =>
    let oldBytesStub := enc r.oldVal.dropLast
    let newBytesStub := enc r.newVal.dropLast
    let oldEndByte := r.oldVal.getLast?
    let newEndByte := (r.newVal.getLast?).getD 0
    applySmartGo newBytesStub oldEndByte newEndByte oldBytesStub.length buf
      (getPatternIndices buf oldBytesStub)

/-- The rule loop of `replaceBinaryStrings`, instrumented to also return, per
replacement, the pair `(position, encoded length of the rule's old string)` —
the match region the replacement claims. -/
def replaceBinaryStringsCore (enc : JsStr → Bytes) (buf : Bytes) :
    List ReplacementRule → Bytes × List (Nat × Nat)
  | [] => (buf, [])
  | r :: rest =>
    let out := applyRuleCore enc buf r
    let oldLen := (enc r.oldVal).length
    let next := replaceBinaryStringsCore enc out.1 rest
    (next.1, out.2.map (fun p => (p, oldLen)) ++ next.2)

namespace GamePatcher

/-- `GamePatcher.replaceBinaryStrings(buffer, replacementMap)`: UTF-16LE
encoding throughout; returns the rewritten buffer and the replacement count. -/
def replaceBinaryStrings (buf : Bytes) (rules : List ReplacementRule) :
    Bytes × Nat :=
  let out := replaceBinaryStringsCore encodeUtf16 buf rules
  (out.1, out.2.length)

/-- The `(position, encoded old length)` regions replaced by
`GamePatcher.replaceBinaryStrings`. -/
def replacedRegions (buf : Bytes) (rules : List ReplacementRule) :
    List (Nat × Nat) :=
  (replaceBinaryStringsCore encodeUtf16 buf rules).2

end GamePatcher

/-- Encoding selector of `ServerPatcher.replaceBinaryStrings`. -/
inductive Encoding : Type
  | utf8 : Encoding
  | utf16 : Encoding
deriving DecidableEq

/-- The encoder the server patcher selects:
`encoding === 'utf16' ? encodeUtf16(s) : stringToUtf8(s)`. -/
def encodeStr : Encoding → JsStr → Bytes
  | .utf16, s => encodeUtf16 s
  | .utf8, s => stringToUtf8 s

namespace ServerPatcher

/-- `ServerPatcher.replaceBinaryStrings(buffer, replacementMap, encoding)`:
identical loop structure to the game patcher's, with the encoder chosen by the
`encoding` argument (the trailing char code is taken from `charCodeAt` in both
encodings, as in the source). -/
def replaceBinaryStrings (buf : Bytes) (rules : List ReplacementRule)
    (encoding : Encoding) : Bytes × Nat :=
  let out := replaceBinaryStringsCore (encodeStr encoding) buf rules
  (out.1, out.2.length)

/-- The `(position, encoded old length)` regions replaced by
`ServerPatcher.replaceBinaryStrings`. -/
def replacedRegions (buf : Bytes) (rules : List ReplacementRule)
    (encoding : Encoding) : List (Nat × Nat) :=
  (replaceBinaryStringsCore (encodeStr encoding) buf rules).2

end ServerPatcher

namespace GamePatcher

/-- The fixed modification list of `applyBinaryMods`: the smart-domain rule
for the game domain and the simple rule for the Discord invite string. -/
def clientModifications (origDomain targetDomain oldDiscord newDiscord : JsStr) :
    List ReplacementRule :=
  [⟨.smartDomain, origDomain, targetDomain⟩, ⟨.simple, oldDiscord, newDiscord⟩]

/-- `GamePatcher.applyBinaryMods(clientPath)`.

`hasTarget` models `trackingContent.includes(targetDomain)` on the sidecar
flag file, and `flagBytes` the serialized JSON written back; neither detail
matters to the claims below. The function: (1) short-circuits when the flag
file exists and records the target; (2) copies `clientPath` to
`clientPath + ".bak"` with any copy error swallowed (`.catch(() => {})`);
(3) reads the client file — a missing file rejects (`none`); (4) applies the
two modification rules in memory (UTF-16LE); (5) writes the patched bytes and
the flag file. -/
def applyBinaryMods (hasTarget : Bytes → Bool) (flagBytes : Bytes) (fs : Fs)
    (clientPath flagSuffix : String)
    (origDomain targetDomain oldDiscord newDiscord : JsStr) : Option Fs :=
  let trackingFile := clientPath ++ flagSuffix
  let alreadyPatched :=
    match fsRead fs trackingFile with
    | some content => hasTarget content
    | none => false
  if alreadyPatched then some fs
  else
    let fs1 :=
      match fsRead fs clientPath with
      | some data => fsWrite fs (clientPath ++ ".bak") data
      | none => fs
    match fsRead fs1 clientPath with
    | none => none
    | some rawData =>
      let out := replaceBinaryStrings rawData
        (clientModifications origDomain targetDomain oldDiscord newDiscord)
      some (fsWrite (fsWrite fs1 clientPath out.1) trackingFile flagBytes)

end GamePatcher

/-- `FileHash` (shared schema): recorded size and digests. Digests live in an
abstract type `H`; the code only ever compares them for equality, and only the
SHA-256 field is ever compared (the MD5/SHA-1 fields are carried around but
never inspected by the modeled services). -/
structure FileHash (H : Type) : Type where
  size : Nat
  sha256 : H
deriving DecidableEq

/-- `CacheEntry` from `cacheManager.ts`. -/
structure CacheEntry (H : Type) : Type where
  url : String
  filePath : String
  hash : FileHash H
  createdAt : Nat
  lastAccessed : Nat
  size : Nat
  accessCount : Nat
deriving DecidableEq

/-- The state a `CacheManager` owns: the in-memory index `Map` (insertion
ordered) and the last index contents persisted to `index.json` by
`saveIndex`. The cached blobs live in the shared file system, threaded
separately. -/
structure CacheState (H : Type) : Type where
  index : List (String × CacheEntry H)
  savedIndex : List (String × CacheEntry H)
deriving DecidableEq

/-- One insertion step of a stable sort: `a` goes after every element that
compares `le` to it, so elements comparing equal keep their original relative
order. -/
def insertAfterLe {α : Type} (le : α → α → Bool) (a : α) : List α → List α
  | [] => [a]
  | b :: t => if le b a then b :: insertAfterLe le a t else a :: b :: t

/-- `Array.prototype.sort(comparator)` for a `≤`-style comparator
(`scoreA - scoreB`): JavaScript's sort is stable, and every stable sort
computes the same list, here realised as a stable insertion sort. -/
def jsSortBy {α : Type} (le : α → α → Bool) (l : List α) : List α :=
  l.foldl (fun acc a => insertAfterLe le a acc) []

namespace CacheManager

/-- The eviction score `last_accessed + access_count * 60000`. -/
def score {H : Type} (e : CacheEntry H) : Nat :=
  e.lastAccessed + e.accessCount * 60000

/-- `Σ entry.size` over the index (`reduce((sum, e) => sum + e.size, 0)`). -/
def totalSize {H : Type} (index : List (String × CacheEntry H)) : Nat :=
  (index.map (fun e => e.2.size)).sum

/-- `CacheManager.remove(url)`: unlink the referenced file (errors swallowed),
delete the index entry, persist the index. -/
def remove {H : Type} (st : CacheState H) (fs : Fs) (url : String) :
    CacheState H × Fs :=
  match jsMapGet st.index url with
  | none => (st, fs)
  | some entry =>
    let newIndex := jsMapDelete st.index url
    (⟨newIndex, newIndex⟩, fsRemove fs entry.filePath)

/-- `CacheManager.get(url)`: re-validate the on-disk file against the entry's
recorded size and SHA-256; on a missing file or any mismatch remove the entry
and return `null`; on a valid hit bump `lastAccessed`/`accessCount` in place
and persist the index. `now` is `Date.now()`, `sha` the SHA-256 digest. -/
def get {H : Type} [DecidableEq H] (sha : Bytes → H) (st : CacheState H)
    (fs : Fs) (url : String) (now : Nat) : Option String × CacheState H × Fs :=
  match jsMapGet st.index url with
  | none => (none, st, fs)
  | some entry =>
    match fsRead fs entry.filePath with
    | none =>
      let out := remove st fs url
      (none, out.1, out.2)
    | some bytes =>
      if bytes.length ≠ entry.size then
        let out := remove st fs url
        (none, out.1, out.2)
      else if sha bytes ≠ entry.hash.sha256 then
        let out := remove st fs url
        (none, out.1, out.2)
      else
        let entry2 :=
          { entry with lastAccessed := now, accessCount := entry.accessCount + 1 }
        let newIndex := jsMapSet st.index url entry2
        (some entry.filePath, ⟨newIndex, newIndex⟩, fs)

/-- The eviction loop of `enforceSizeLimit`: walk the score-sorted entries,
stopping as soon as the running size fits the target, otherwise removing the
entry and subtracting its size. Sizes are signed because
`maxSizeBytes - AdditionalBytes` can go negative in JavaScript. -/
def evictLoop {H : Type} :
    List (String × CacheEntry H) → CacheState H → Fs → Int → Int →
      CacheState H × Fs
  | [], st, fs, _, _ => (st, fs)
  | (url, _) :: rest, st, fs, currentSize, targetSize =>
    if currentSize ≤ targetSize then (st, fs)
    else
      match jsMapGet st.index url with
      | some entry =>
        let out := remove st fs url
        evictLoop rest out.1 out.2 (currentSize - entry.size) targetSize
      | none => evictLoop rest st fs currentSize targetSize

/-- `CacheManager.enforceSizeLimit(AdditionalBytes)`: if the current total
exceeds `maxSizeBytes - AdditionalBytes`, evict entries in ascending order of
`score` until it fits. The sort is JavaScript's stable sort with comparator
`scoreA - scoreB`. -/
def enforceSizeLimit {H : Type} (st : CacheState H) (fs : Fs)
    (maxSizeBytes additionalBytes : Nat) : CacheState H × Fs :=
  let currentSize : Int := totalSize st.index
  let targetSize : Int := (maxSizeBytes : Int) - (additionalBytes : Int)
  if currentSize ≤ targetSize then (st, fs)
  else
    let sortedEntries :=
      jsSortBy (fun a b => decide (score a.2 ≤ score b.2)) st.index
    evictLoop sortedEntries st fs currentSize targetSize

/-- `CacheManager.put(url, filePath, hash)`: stat the file (a failure is
logged and swallowed, leaving the state unchanged), build the new entry with
`size` from the stat, make room via `enforceSizeLimit(entry.size)`, record the
entry, persist the index. -/
def put {H : Type} (st : CacheState H) (fs : Fs) (url filePath : String)
    (hash : FileHash H) (now maxSizeBytes : Nat) : CacheState H × Fs :=
  match fsRead fs filePath with
  | none => (st, fs)
  | some bytes =>
    let entry : CacheEntry H :=
      ⟨url, filePath, hash, now, now, bytes.length, 0⟩
    let out := enforceSizeLimit st fs maxSizeBytes entry.size
    let newIndex := jsMapSet out.1.index url entry
    (⟨newIndex, newIndex⟩, out.2)

end CacheManager

/-- `DownloadResult` from `downloadManager.ts`. -/
structure DownloadResult (H : Type) : Type where
  success : Bool
  path : String
  size : Nat
  hash : Option (FileHash H)
  duration : Nat
  fromCache : Bool
deriving DecidableEq

namespace DownloadManager

/-- `DownloadManager.download(options)`.

`netOutcome` is the outcome of the retry-wrapped `performDownload`: an error
after exhaustion/non-retryable failure/abort/incomplete download, or the byte
stream that was written to `destPath + ".part"` and renamed into place
(`performDownload` only ever resolves with `success: true`). `elapsed` models
`Date.now() - startTime`. After a successful transfer, when `expectedHash` is
present the file is re-hashed and only the SHA-256 digest is compared; on a
mismatch the file is unlinked and the thrown error is converted by the
enclosing catch into a failure result, like every other error. -/
def download {H : Type} [DecidableEq H] (sha : Bytes → H) (fs : Fs)
    (destPath : String) (expectedHash : Option (FileHash H))
    (netOutcome : Except Unit Bytes) (elapsed : Nat) :
    DownloadResult H × Fs :=
  match netOutcome with
  | .error _ => (⟨false, destPath, 0, none, elapsed, false⟩, fs)
  | .ok bytes =>
    let fs1 := fsWrite fs destPath bytes
    match expectedHash with
    | some eh =>
      if sha bytes = eh.sha256 then
        (⟨true, destPath, bytes.length, some eh, elapsed, false⟩, fs1)
      else
        (⟨false, destPath, 0, none, elapsed, false⟩, fsRemove fs1 destPath)
    | none => (⟨true, destPath, bytes.length, none, elapsed, false⟩, fs1)

end DownloadManager

namespace DownloadService

/-- `DownloadService.executeDownload(task)`.

Cache-first: consult `CacheManager.get(url)`; on a hit, copy the cached file
to `destPath` and resolve `{success: true, fromCache: true}` with the copied
size (`result.hash` is left `none`: the source only builds it when an `sha1`
digest is present, and `computeHashes` is asked only for `sha256`/`md5`
there). On a miss, delegate to `DownloadManager.download`. `none` models a
rejected promise (the copy of a vanished cache file), which the service does
not catch. -/
def executeDownload {H : Type} [DecidableEq H] (sha : Bytes → H)
    (st : CacheState H) (fs : Fs) (url destPath : String)
    (expectedHash : Option (FileHash H)) (now : Nat)
    (netOutcome : Except Unit Bytes) (elapsed : Nat) :
    Option (DownloadResult H × CacheState H × Fs) :=
  let hit := CacheManager.get sha st fs url now
  match hit.1 with
  | some cachedPath =>
    match fsRead hit.2.2 cachedPath with
    | none => none
    | some bytes =>
      let fs2 := fsWrite hit.2.2 destPath bytes
      some (⟨true, destPath, bytes.length, none, 0, true⟩, hit.2.1, fs2)
  | none =>
    let out := DownloadManager.download sha hit.2.2 destPath expectedHash
      netOutcome elapsed
    some (out.1, hit.2.1, out.2)

end DownloadService

/-- A JavaScript throw site as seen by the retry harness: either an `Error`
object carrying a message (as UTF-16 code units), or any other thrown value. -/
inductive JsError : Type
  | errorObj (message : JsStr) : JsError
  | nonError : JsError
deriving DecidableEq

/-- `String.prototype.toLowerCase` restricted to ASCII folding, which is all
the transport-error patterns and codes exercise. -/
def toLowerCase (s : JsStr) : JsStr :=
  s.map (fun c => if 65 ≤ c ∧ c ≤ 90 then c + 32 else c)

/-- `hay.includes(needle)` (`String.prototype.includes`): does `needle` occur
as a contiguous run inside `hay`? -/
def listIncludes {α : Type} [BEq α] : List α → List α → Bool
  | [], needle => needle.isEmpty
  | a :: t, needle => needle.isPrefixOf (a :: t) || listIncludes t needle

/-- The pattern list of `DEFAULT_RETRY_OPTIONS.retryableErrors`. -/
def retryablePatterns : List JsStr :=
  [jsStr "ECONNRESET", jsStr "ECONNREFUSED", jsStr "ETIMEDOUT",
   jsStr "ENOTFOUND", jsStr "EPIPE", jsStr "timeout", jsStr "network"]

/-- `DEFAULT_RETRY_OPTIONS.retryableErrors`: an error is retryable when it is
an `Error` whose lowercased message contains one of the lowercased patterns. -/
def defaultRetryable : JsError → Bool
  | .errorObj message =>
    retryablePatterns.any
      (fun p => listIncludes (toLowerCase message) (toLowerCase p))
  | .nonError => false

/-- How a `withRetry` run ends: the operation's value, the last thrown error
rethrown, or the trailing `throw new Error('Retry logic failed')` reached only
when the `for` loop body never runs. -/
inductive RetryOutcome (E A : Type) : Type
  | ok (a : A) : RetryOutcome E A
  | failed (e : E) : RetryOutcome E A
  | logicFailed : RetryOutcome E A
deriving DecidableEq

/-- The `for (attempt = 1; attempt <= maxAttempts; attempt++)` loop of
`withRetry`. `op k` is the outcome of the k-th invocation of `fn`. The fuel
counts the remaining loop iterations (`maxAttempts - attempt + 1`), so fuel 0
is exactly the loop condition failing. Returns the outcome, the number of
invocations of `fn`, and the list of back-off delays slept, in order. -/
def withRetryGo {E A : Type} (op : Nat → Except E A) (retryable : E → Bool)
    (maxAttempts baseDelay maxDelay : Nat) :
    Nat → Nat → RetryOutcome E A × Nat × List Nat
  | _, 0 => (.logicFailed, 0, [])
  | attempt, fuel + 1 =>
    match op attempt with
    | .ok a => (.ok a, 1, [])
    | .error e =>
      if attempt = maxAttempts ∨ retryable e = false then (.failed e, 1, [])
      else
        let delay := min (baseDelay * 2 ^ (attempt - 1)) maxDelay
        let out := withRetryGo op retryable maxAttempts baseDelay maxDelay
          (attempt + 1) fuel
        (out.1, out.2.1 + 1, delay :: out.2.2)

/-- `withRetry(fn, options)` with the option record already merged. -/
def withRetry {E A : Type} (op : Nat → Except E A) (retryable : E → Bool)
    (maxAttempts baseDelay maxDelay : Nat) :
    RetryOutcome E A × Nat × List Nat :=
  withRetryGo op retryable maxAttempts baseDelay maxDelay 1 maxAttempts

/-- `PatchInfo` from `patchDiscovery.ts`. -/
structure PatchInfo : Type where
  url : String
  fromVersion : Nat
  toVersion : Nat
  isFull : Bool
deriving DecidableEq

namespace PatchDiscovery

/-- `maxSearchVersion`, the binary-search upper bound. -/
def maxSearchVersion : Nat := 100

/-- `resolveCdnChannel`. -/
def resolveCdnChannel (channel : String) : String :=
  if channel = "beta" then "pre-release" else "release"

/-- `getPatchUrl(from, to, channel)`: `base/channel/from/to.pwr`. -/
def getPatchUrl (baseUrl : String) (fromV toV : Nat) (channel : String) :
    String :=
  baseUrl ++ resolveCdnChannel channel ++ "/" ++ toString fromV ++ "/" ++
    toString toV ++ ".pwr"

/-- `getFullVersionUrl(version, channel)`. -/
def getFullVersionUrl (baseUrl : String) (version : Nat) (channel : String) :
    String :=
  getPatchUrl baseUrl 0 version channel

/-- The `while (low <= high)` loop of `findLatestBaseVersion`. `probe`
abstracts `probeUrl` (HEAD, falling back to a ranged GET; any 2xx is `true`).
Each iteration shrinks `high + 1 - low`, so `maxSearchVersion + 2` fuel always
suffices for the initial range `[0, maxSearchVersion]`. -/
def findLatestBaseGo (probe : String → Bool) (baseUrl channel : String) :
    Nat → Nat → Option Nat → Nat → Option Nat
  | _, _, best, 0 => best
  | low, high, best, fuel + 1 =>
    if low ≤ high then
      let mid := (low + high) / 2
      if mid = 0 then findLatestBaseGo probe baseUrl channel 1 high best fuel
      else if probe (getPatchUrl baseUrl 0 mid channel) then
        findLatestBaseGo probe baseUrl channel (mid + 1) high (some mid) fuel
      else
        findLatestBaseGo probe baseUrl channel low (mid - 1) best fuel
    else best

/-- `findLatestBaseVersion(channel)`: sanity-probe `0/1.pwr`, then binary
search `[0, maxSearchVersion]` for the largest `N` with `0/N.pwr` present
(`bestVersion` starts at −1 and is only ever set to a probed `mid ≥ 1`, so
`Option Nat` with `none` for −1 is exact, and `bestVersion > 0` at the end is
exactly `isSome`). -/
def findLatestBaseVersion (probe : String → Bool) (baseUrl channel : String) :
    Option PatchInfo :=
  if probe (getPatchUrl baseUrl 0 1 channel) = false then none
  else
    match findLatestBaseGo probe baseUrl channel 0 maxSearchVersion none
      (maxSearchVersion + 2) with
    | some best =>
      some ⟨getPatchUrl baseUrl 0 best channel, 0, best, true⟩
    | none => none

end PatchDiscovery

namespace GamePatcher

/-- `GamePatcher.applyPatchInternal(patchInfo, gameDir, ...)`: download the
`.pwr` blob into the cache directory (a failed download throws
`Failed to download data <name>`), then run the external tool
`butler apply --staging-dir <staging> <patchPath> <gameDir>`; `toolApply`
abstracts the child process, returning `.error` on a non-zero exit. The
unconditional cleanup of the blob is a temp-file effect not modeled. -/
def applyPatchInternal (downloadOk : String → Bool)
    (toolApply : String → String → Except String Unit)
    (cacheDir gameDir : String) (fromVersion toVersion : Nat) (url : String) :
    Except String Unit :=
  let patchFileName :=
    "patch-" ++ toString fromVersion ++ "-to-" ++ toString toVersion ++ ".pwr"
  let patchPath := cacheDir ++ "/" ++ patchFileName
  if downloadOk url = false then
    .error ("Failed to download data " ++ patchFileName)
  else toolApply patchPath gameDir

/-- `GamePatcher.applyPatchOrRescue(patchInfo, ..., channel)`: try the
incremental patch; on any failure build the rescue patch
`{fromVersion: 0, toVersion: patchInfo.toVersion, url: getFullVersionUrl(...)}`
and apply it, letting a rescue failure propagate. Also returns the list of
`(fromVersion, toVersion, url)` triples handed to `applyPatchInternal`, in
order. -/
def applyPatchOrRescue (downloadOk : String → Bool)
    (toolApply : String → String → Except String Unit)
    (cacheDir gameDir baseUrl channel : String) (p : PatchInfo) :
    Except String Unit × List (Nat × Nat × String) :=
  match applyPatchInternal downloadOk toolApply cacheDir gameDir
    p.fromVersion p.toVersion p.url with
  | .ok _ => (.ok (), [(p.fromVersion, p.toVersion, p.url)])
  | .error _ =>
    let rescueUrl := PatchDiscovery.getFullVersionUrl baseUrl p.toVersion channel
    (applyPatchInternal downloadOk toolApply cacheDir gameDir 0 p.toVersion
        rescueUrl,
      [(p.fromVersion, p.toVersion, p.url), (0, p.toVersion, rescueUrl)])

end GamePatcher

section JsMapLemmas

variable {β : Type}

theorem jsMapGet_set_self (m : List (String × β)) (k : String) (v : β) :
    jsMapGet (jsMapSet m k v) k = some v := by
  unfold jsMapGet jsMapSet
  split
  case isTrue hany =>
    rw [List.find?_map]
    have hfun : ((fun e : String × β => decide (e.1 = k)) ∘
        fun e : String × β => if e.1 = k then (k, v) else e) =
        fun e : String × β => decide (e.1 = k) := by
      funext e
      by_cases he : e.1 = k <;> simp [he]
    rw [hfun]
    rcases hf : List.find? (fun e : String × β => decide (e.1 = k)) m with _ | e0
    · rcases List.any_eq_true.mp hany with ⟨e, hem, hek⟩
      have := List.find?_eq_none.mp hf e hem
      exact absurd hek this
    · have he0 : e0.1 = k := by simpa using List.find?_some hf
      simp [he0]
  case isFalse hany =>
    rw [List.find?_append]
    have hnone : List.find? (fun e : String × β => decide (e.1 = k)) m = none := by
      apply List.find?_eq_none.mpr
      intro e hem hek
      exact hany (List.any_eq_true.mpr ⟨e, hem, hek⟩)
    rw [hnone]
    simp [List.find?_cons]

theorem jsMapGet_set_ne (m : List (String × β)) (k q : String) (v : β)
    (h : q ≠ k) : jsMapGet (jsMapSet m k v) q = jsMapGet m q := by
  unfold jsMapGet jsMapSet
  split
  · rw [List.find?_map]
    have hfun : ((fun e : String × β => decide (e.1 = q)) ∘
        fun e : String × β => if e.1 = k then (k, v) else e) =
        fun e : String × β => decide (e.1 = q) := by
      funext e
      by_cases he : e.1 = k <;> simp [he, Ne.symm h]
    rw [hfun]
    rcases hf : List.find? (fun e : String × β => decide (e.1 = q)) m with _ | e0
    · simp
    · have he0 : e0.1 = q := by simpa using List.find?_some hf
      have : (if e0.1 = k then ((k, v) : String × β) else e0) = e0 :=
        if_neg (by rw [he0]; exact h)
      simp [this]
  · rw [List.find?_append]
    have : List.find? (fun e : String × β => decide (e.1 = q)) [(k, v)] = none := by
      simp [List.find?_cons, Ne.symm h]
    rw [this]
    simp

theorem jsMapGet_delete_self (m : List (String × β)) (k : String) :
    jsMapGet (jsMapDelete m k) k = none := by
  unfold jsMapGet jsMapDelete
  rw [List.find?_filter]
  have : List.find?
      (fun a : String × β =>
        decide ((decide ¬a.1 = k) = true ∧ (decide (a.1 = k)) = true)) m
      = none := by
    apply List.find?_eq_none.mpr
    intro e _
    by_cases he : e.1 = k <;> simp [he]
  rw [this]
  rfl

theorem jsMapGet_delete_ne (m : List (String × β)) (k q : String) (h : q ≠ k) :
    jsMapGet (jsMapDelete m k) q = jsMapGet m q := by
  unfold jsMapGet jsMapDelete
  rw [List.find?_filter]
  have hfun : (fun a : String × β =>
      decide ((decide ¬a.1 = k) = true ∧ (decide (a.1 = q)) = true)) =
      fun a : String × β => decide (a.1 = q) := by
    funext a
    by_cases ha : a.1 = q
    · simp [ha, h]
    · simp [ha]
  rw [hfun]

theorem mem_of_jsMapGet {m : List (String × β)} {k : String} {v : β}
    (h : jsMapGet m k = some v) : (k, v) ∈ m := by
  unfold jsMapGet at h
  rcases hf : List.find? (fun e : String × β => decide (e.1 = k)) m with _ | e0
  · rw [hf] at h; simp at h
  · rw [hf] at h
    simp at h
    have he0 : e0.1 = k := by simpa using List.find?_some hf
    have hmem := List.mem_of_find?_eq_some hf
    have : e0 = (k, v) := by
      cases e0; simp_all
    exact this ▸ hmem

theorem jsMapGet_none_not_mem {m : List (String × β)} {k : String}
    (h : jsMapGet m k = none) : ∀ v : β, (k, v) ∉ m := by
  intro v hv
  unfold jsMapGet at h
  rcases hf : List.find? (fun e : String × β => decide (e.1 = k)) m with _ | e0
  · have := List.find?_eq_none.mp hf (k, v) hv
    simp at this
  · rw [hf] at h; simp at h

theorem mem_jsMapSet_of_ne {m : List (String × β)} {k q : String} {v w : β}
    (h : q ≠ k) : (q, w) ∈ jsMapSet m k v ↔ (q, w) ∈ m := by
  unfold jsMapSet
  split
  · constructor
    · intro hm
      rcases List.mem_map.mp hm with ⟨e, he, heq⟩
      by_cases he1 : e.1 = k
      · rw [if_pos he1] at heq
        cases heq
        exact absurd rfl h
      · rw [if_neg he1] at heq
        exact heq ▸ he
    · intro hm
      apply List.mem_map.mpr
      refine ⟨(q, w), hm, ?_⟩
      rw [if_neg (by simpa using h)]
  · simp only [List.mem_append, List.mem_singleton]
    constructor
    · rintro (hm | hm)
      · exact hm
      · cases hm; exact absurd rfl h
    · intro hm; exact Or.inl hm

end JsMapLemmas

section FsLemmas

/-- `fsRead` is the generic association-list lookup. -/
theorem fsRead_eq_jsMapGet : @fsRead = @jsMapGet Bytes := rfl

/-- `fsWrite` is the generic association-list update. -/
theorem fsWrite_eq_jsMapSet : @fsWrite = @jsMapSet Bytes := rfl

/-- `fsRemove` is the generic association-list removal. -/
theorem fsRemove_eq_jsMapDelete : @fsRemove = @jsMapDelete Bytes := rfl

theorem fsRead_fsWrite_self (fs : Fs) (p : String) (b : Bytes) :
    fsRead (fsWrite fs p b) p = some b := by
  rw [fsRead_eq_jsMapGet, fsWrite_eq_jsMapSet]
  exact jsMapGet_set_self fs p b

theorem fsRead_fsWrite_ne (fs : Fs) (p q : String) (b : Bytes) (h : q ≠ p) :
    fsRead (fsWrite fs p b) q = fsRead fs q := by
  rw [fsRead_eq_jsMapGet, fsWrite_eq_jsMapSet]
  exact jsMapGet_set_ne fs p q b h

theorem fsRead_fsRemove_self (fs : Fs) (p : String) :
    fsRead (fsRemove fs p) p = none := by
  rw [fsRead_eq_jsMapGet, fsRemove_eq_jsMapDelete]
  exact jsMapGet_delete_self fs p

end FsLemmas

/-- The smart-domain rule of launcher claim 6's scenario: `x.com → x.ws`. -/
def xcomRule : ReplacementRule :=
  ⟨.smartDomain, jsStr "x.com", jsStr "x.ws"⟩

/-- C10: `DownloadManager.download` is total at its interface: it resolves for
every outcome of the retried transfer, fails exactly when the transfer errors
out or the post-download SHA-256 check misses, and every failure resolves to
`{success: false, path: destPath, size: 0, fromCache: false}` with the
elapsed duration. -/
theorem download_total_interface {H : Type} [DecidableEq H] (sha : Bytes → H)
    (fs : Fs) (destPath : String) (expectedHash : Option (FileHash H))
    (netOutcome : Except Unit Bytes) (elapsed : Nat) :
    ((DownloadManager.download sha fs destPath expectedHash netOutcome
        elapsed).1.success = false ↔
      (netOutcome = .error () ∨ ∃ eh bytes, expectedHash = some eh ∧
        netOutcome = .ok bytes ∧ sha bytes ≠ eh.sha256)) ∧
    ((DownloadManager.download sha fs destPath expectedHash netOutcome
        elapsed).1.success = false →
      (DownloadManager.download sha fs destPath expectedHash netOutcome
        elapsed).1 = ⟨false, destPath, 0, none, elapsed, false⟩) := by
  rcases netOutcome with e | bytes
  · cases e
    constructor
    · simp [DownloadManager.download]
    · intro _; rfl
  · rcases expectedHash with _ | eh
    · constructor
      · simp [DownloadManager.download]
      · intro h
        simp [DownloadManager.download] at h
    · by_cases hsha : sha bytes = eh.sha256
      · constructor
        · constructor
          · intro h
            simp [DownloadManager.download, hsha] at h
          · rintro (h | ⟨eh2, b2, he, hb, hne⟩)
            · simp at h
            · cases he; cases hb; exact absurd hsha hne
        · intro h
          simp [DownloadManager.download, hsha] at h
      · constructor
        · constructor
          · intro _
            exact Or.inr ⟨eh, bytes, rfl, rfl, hsha⟩
          · intro _
            simp [DownloadManager.download, hsha]
        · intro _
          simp [DownloadManager.download, hsha]

/-- Witness for `download_total_interface`: a concrete mismatching download
resolves to the canonical failure record. -/
theorem download_total_interface_witness :
    (DownloadManager.download (H := Bytes) id [] "/tmp/d"
        (some ⟨3, [9]⟩) (.ok [1, 2]) 5).1 =
      ⟨false, "/tmp/d", 0, none, 5, false⟩ :=
  (download_total_interface (H := Bytes) id [] "/tmp/d" (some ⟨3, [9]⟩)
    (.ok [1, 2]) 5).2 (by decide)

/-- C4: `applyPatchOrRescue`: when the incremental apply fails, exactly the
rescue patch `{fromVersion: 0, toVersion: p.toVersion, url:
getFullVersionUrl(p.toVersion, channel)}` is applied next, its outcome —
success or failure — is returned unchanged (so a rescue failure propagates and
is never itself rescued), and at most two applications ever happen; when the
incremental apply succeeds, it is the only application. -/
theorem applyPatchOrRescue_spec (downloadOk : String → Bool)
    (toolApply : String → String → Except String Unit)
    (cacheDir gameDir baseUrl channel : String) (p : PatchInfo) :
    ((∀ e, GamePatcher.applyPatchInternal downloadOk toolApply cacheDir gameDir
        p.fromVersion p.toVersion p.url = .error e →
      (GamePatcher.applyPatchOrRescue downloadOk toolApply cacheDir gameDir
          baseUrl channel p).2 =
        [(p.fromVersion, p.toVersion, p.url),
         (0, p.toVersion,
           PatchDiscovery.getFullVersionUrl baseUrl p.toVersion channel)] ∧
      (GamePatcher.applyPatchOrRescue downloadOk toolApply cacheDir gameDir
          baseUrl channel p).1 =
        GamePatcher.applyPatchInternal downloadOk toolApply cacheDir gameDir
          0 p.toVersion
          (PatchDiscovery.getFullVersionUrl baseUrl p.toVersion channel))) ∧
    (GamePatcher.applyPatchInternal downloadOk toolApply cacheDir gameDir
        p.fromVersion p.toVersion p.url = .ok () →
      (GamePatcher.applyPatchOrRescue downloadOk toolApply cacheDir gameDir
          baseUrl channel p).2 = [(p.fromVersion, p.toVersion, p.url)] ∧
      (GamePatcher.applyPatchOrRescue downloadOk toolApply cacheDir gameDir
          baseUrl channel p).1 = .ok ()) ∧
    (GamePatcher.applyPatchOrRescue downloadOk toolApply cacheDir gameDir
        baseUrl channel p).2.length ≤ 2 := by
  unfold GamePatcher.applyPatchOrRescue
  rcases h : GamePatcher.applyPatchInternal downloadOk toolApply cacheDir
    gameDir p.fromVersion p.toVersion p.url with e | u
  · refine ⟨?_, ?_, ?_⟩
    · intro e2 he2
      exact ⟨rfl, rfl⟩
    · intro hok
      simp at hok
    · simp
  · cases u
    refine ⟨?_, ?_, ?_⟩
    · intro e2 he2
      simp at he2
    · intro _
      exact ⟨rfl, rfl⟩
    · simp

/-- Witness for `applyPatchOrRescue_spec`: a concrete failing incremental
patch whose rescue succeeds. -/
theorem applyPatchOrRescue_spec_witness :
    (GamePatcher.applyPatchOrRescue (fun u => decide (u ≠ "bad"))
        (fun _ _ => .ok ()) "/cache" "/game" "B/" "latest"
        ⟨"bad", 8, 9, false⟩).2 =
      [(8, 9, "bad"),
       (0, 9, PatchDiscovery.getFullVersionUrl "B/" 9 "latest")] :=
  ((applyPatchOrRescue_spec (fun u => decide (u ≠ "bad")) (fun _ _ => .ok ())
      "/cache" "/game" "B/" "latest" ⟨"bad", 8, 9, false⟩).1
    "Failed to download data patch-8-to-9.pwr" (by rfl)).1

section Discovery

open PatchDiscovery

/-- Invariant-carrying description of the binary-search loop run against a
downward-closed probe with threshold `K`: it lands on `min K 100`. -/
theorem findLatestBaseGo_spec (probe : String → Bool) (baseUrl channel : String)
    (K : Nat)
    (hp : ∀ N, 1 ≤ N → N ≤ 100 →
      probe (getPatchUrl baseUrl 0 N channel) = decide (N ≤ K))
    (hK : 1 ≤ K) :
    ∀ fuel low high best,
      high + 2 - low ≤ fuel →
      high ≤ 100 →
      min K 100 ≤ high →
      (best = none → low ≤ 1) →
      (∀ b, best = some b → low = b + 1 ∧ 1 ≤ b ∧ b ≤ K ∧ b ≤ 100) →
      findLatestBaseGo probe baseUrl channel low high best fuel =
        some (min K 100) := by
  intro fuel
  induction fuel with
  | zero =>
    intro low high best hfuel hh100 hminh hnone hsome
    exfalso
    rcases best with _ | b
    · have := hnone rfl
      omega
    · have := hsome b rfl
      have hmK : min K 100 ≤ K := Nat.min_le_left _ _
      have hm100 : min K 100 ≤ 100 := Nat.min_le_right _ _
      have hbm : b ≤ min K 100 := le_min this.2.2.1 this.2.2.2
      omega
  | succ fuel ih =>
    intro low high best hfuel hh100 hminh hnone hsome
    show findLatestBaseGo probe baseUrl channel low high best (fuel + 1) = _
    rw [findLatestBaseGo]
    by_cases hlh : low ≤ high
    · rw [if_pos hlh]
      by_cases hmid : (low + high) / 2 = 0
      · rw [if_pos hmid]
        have hlow0 : low = 0 := by omega
        have hbestnone : best = none := by
          rcases best with _ | b
          · rfl
          · have := hsome b rfl
            omega
        subst hbestnone
        exact ih 1 high none (by omega) hh100 hminh (fun _ => le_refl 1)
          (fun b hb => by simp at hb)
      · rw [if_neg hmid]
        have hmlow : low ≤ (low + high) / 2 := by omega
        have hmhigh : (low + high) / 2 ≤ high := by omega
        rw [hp ((low + high) / 2) (by omega) (by omega)]
        by_cases hmk : (low + high) / 2 ≤ K
        · rw [if_pos (by simpa using hmk)]
          exact ih ((low + high) / 2 + 1) high (some ((low + high) / 2))
            (by omega) hh100 hminh (fun h => by simp at h)
            (fun b hb => by
              have hb2 : b = (low + high) / 2 := by
                simpa using hb.symm
              subst hb2
              exact ⟨rfl, by omega, hmk, by omega⟩)
        · rw [if_neg (by simpa using hmk)]
          have hmK : min K 100 ≤ K := Nat.min_le_left _ _
          exact ih low ((low + high) / 2 - 1) best (by omega) (by omega)
            (by omega) hnone hsome
    · rw [if_neg hlh]
      rcases best with _ | b
      · exfalso
        have := hnone rfl
        have hmK : 1 ≤ min K 100 := le_min hK (by omega)
        omega
      · have := hsome b rfl
        have hmK : min K 100 ≤ K := Nat.min_le_left _ _
        have hm100 : min K 100 ≤ 100 := Nat.min_le_right _ _
        have : b = min K 100 := by
          have hbm : b ≤ min K 100 := le_min this.2.2.1 this.2.2.2
          omega
        rw [this]

/-- C5 (amended): against a probe that is downward-closed with threshold `K ≥ 1`
on the probed range, `findLatestBaseVersion` returns
`PatchInfo{from = 0, to = min K MAX_SEARCH, is_full = true}` — which is `K`
exactly when `K ≤ MAX_SEARCH = 100`, and is capped at 100 otherwise. -/
theorem findLatestBaseVersion_spec (probe : String → Bool)
    (baseUrl channel : String) (K : Nat) (hK : 1 ≤ K)
    (hp : ∀ N, 1 ≤ N → N ≤ 100 →
      probe (getPatchUrl baseUrl 0 N channel) = decide (N ≤ K)) :
    findLatestBaseVersion probe baseUrl channel =
      some ⟨getPatchUrl baseUrl 0 (min K 100) channel, 0, min K 100, true⟩ := by
  unfold findLatestBaseVersion
  have h1 : probe (getPatchUrl baseUrl 0 1 channel) = true := by
    rw [hp 1 (le_refl 1) (by omega)]
    simp [hK]
  rw [h1]
  simp only [Bool.true_eq_false, if_false]
  rw [show maxSearchVersion = 100 from rfl]
  rw [findLatestBaseGo_spec probe baseUrl channel K hp hK 102 0 100 none
    (by omega) (by omega) (Nat.min_le_right _ _) (fun _ => by omega)
    (fun b hb => by simp at hb)]

/-- The mocked CDN of the spec's probe scenario: exactly the full patches
`0/1.pwr … 0/K.pwr` exist. -/
def probeOracle (K : Nat) (baseUrl channel : String) : String → Bool :=
  fun u =>
    (List.range (K + 1)).any
      (fun n => decide (1 ≤ n) && decide (u = getPatchUrl baseUrl 0 n channel))

set_option maxHeartbeats 4000000 in
/-- Counterexample to C5 as stated: with builds `1..=101` available (a
downward-closed probe with threshold `K = 101`), `findLatestBaseVersion`
returns build 100, not `K`: the result is clamped to `MAX_SEARCH = 100`, so
the claim's "for every K ≥ 1, regardless of MAX_SEARCH" fails. -/
theorem findLatestBaseVersion_counterexample :
    (findLatestBaseVersion (probeOracle 101 "B/" "latest") "B/"
        "latest").map PatchInfo.toVersion = some 100 ∧
    ¬ ((findLatestBaseVersion (probeOracle 101 "B/" "latest") "B/"
        "latest").map PatchInfo.toVersion = some 101) ∧
    (∀ N, N < 111 → 1 ≤ N →
      probeOracle 101 "B/" "latest" (getPatchUrl "B/" 0 N "latest") =
        decide (N ≤ 101)) := by
  refine ⟨by decide, by decide, by decide⟩

set_option maxHeartbeats 4000000 in
theorem findLatestBaseVersion_spec_witness :
    ((1 : Nat) ≤ 7 ∧ ∀ N, N < 101 → 1 ≤ N →
      probeOracle 7 "B/" "latest" (getPatchUrl "B/" 0 N "latest") =
        decide (N ≤ 7)) ∧
    findLatestBaseVersion (probeOracle 7 "B/" "latest") "B/" "latest" =
      some ⟨getPatchUrl "B/" 0 (min 7 100) "latest", 0, min 7 100, true⟩ :=
  ⟨⟨by decide, by decide⟩,
    findLatestBaseVersion_spec (probeOracle 7 "B/" "latest") "B/" "latest" 7
      (by decide)
      (fun N h1 h100 => by
        have hb : ∀ M, M < 101 → 1 ≤ M →
            probeOracle 7 "B/" "latest" (getPatchUrl "B/" 0 M "latest") =
              decide (M ≤ 7) := by decide
        exact hb N (by omega) h1)⟩

end Discovery

section Retry

theorem isPrefixOf_decomp {α : Type} [BEq α] [LawfulBEq α] : ∀ (n h : List α),
    n.isPrefixOf h = true ↔ ∃ t, h = n ++ t := by
  intro n
  induction n with
  | nil =>
    intro h
    simp [List.isPrefixOf]
  | cons a n ih =>
    intro h
    cases h with
    | nil =>
      simp [List.isPrefixOf]
    | cons b t =>
      simp only [List.isPrefixOf, Bool.and_eq_true, beq_iff_eq]
      constructor
      · rintro ⟨rfl, hp⟩
        rcases (ih t).mp hp with ⟨t2, rfl⟩
        exact ⟨t2, rfl⟩
      · rintro ⟨t2, heq⟩
        simp only [List.cons_append, List.cons.injEq] at heq
        exact ⟨heq.1.symm, (ih t).mpr ⟨t2, heq.2⟩⟩

theorem listIncludes_iff {α : Type} [BEq α] [LawfulBEq α] (h n : List α) :
    listIncludes h n = true ↔ ∃ l₁ l₂, h = l₁ ++ n ++ l₂ := by
  induction h with
  | nil =>
    simp only [listIncludes, List.isEmpty_iff]
    constructor
    · rintro rfl
      exact ⟨[], [], rfl⟩
    · rintro ⟨l₁, l₂, heq⟩
      rcases List.append_eq_nil.mp (List.append_eq_nil.mp heq.symm).1 with ⟨_, h2⟩
      exact h2
  | cons a t ih =>
    simp only [listIncludes, Bool.or_eq_true]
    constructor
    · rintro (hp | hrec)
      · rcases (isPrefixOf_decomp n (a :: t)).mp hp with ⟨t2, heq⟩
        exact ⟨[], t2, by simpa using heq⟩
      · rcases ih.mp hrec with ⟨l₁, l₂, rfl⟩
        exact ⟨a :: l₁, l₂, rfl⟩
    · rintro ⟨l₁, l₂, heq⟩
      cases l₁ with
      | nil =>
        left
        exact (isPrefixOf_decomp n (a :: t)).mpr ⟨l₂, by simpa using heq⟩
      | cons b l₁ =>
        right
        simp only [List.cons_append, List.cons.injEq] at heq
        exact ih.mpr ⟨l₁, l₂, heq.2⟩

/-- Invariant-carrying description of the `withRetry` attempt loop. -/
theorem withRetryGo_spec {E A : Type} (op : Nat → Except E A)
    (retryable : E → Bool) (M base maxD : Nat) :
    ∀ fuel attempt, attempt + fuel = M + 1 → 1 ≤ attempt →
      (withRetryGo op retryable M base maxD attempt fuel).2.1 ≤ fuel ∧
      (withRetryGo op retryable M base maxD attempt fuel).2.2.length =
        (withRetryGo op retryable M base maxD attempt fuel).2.1 - 1 ∧
      (∀ i, i < (withRetryGo op retryable M base maxD attempt fuel).2.2.length →
        (withRetryGo op retryable M base maxD attempt fuel).2.2.getD i 0 =
          min (base * 2 ^ (attempt - 1 + i)) maxD) ∧
      (∀ k, attempt ≤ k →
        k + 1 < attempt + (withRetryGo op retryable M base maxD attempt fuel).2.1 →
        ∃ e, op k = .error e ∧ retryable e = true) ∧
      (∀ e, (withRetryGo op retryable M base maxD attempt fuel).1 = .failed e →
        op (attempt + (withRetryGo op retryable M base maxD attempt fuel).2.1 - 1) =
          .error e ∧
        (retryable e = false ∨
          attempt + (withRetryGo op retryable M base maxD attempt fuel).2.1 - 1 = M)) ∧
      (∀ a, (withRetryGo op retryable M base maxD attempt fuel).1 = .ok a →
        op (attempt + (withRetryGo op retryable M base maxD attempt fuel).2.1 - 1) =
          .ok a) ∧
      ((withRetryGo op retryable M base maxD attempt fuel).1 = .logicFailed ↔
        fuel = 0) ∧
      (1 ≤ fuel → 1 ≤ (withRetryGo op retryable M base maxD attempt fuel).2.1) := by
  intro fuel
  induction fuel with
  | zero =>
    intro attempt hinv h1
    refine ⟨le_refl 0, rfl, ?_, ?_, ?_, ?_, ?_, ?_⟩
    · intro i hi
      simp [withRetryGo] at hi
    · intro k hk hk2
      simp [withRetryGo] at hk2
      omega
    · intro e he
      simp [withRetryGo] at he
    · intro a ha
      simp [withRetryGo] at ha
    · simp [withRetryGo]
    · intro h
      omega
  | succ fuel ih =>
    intro attempt hinv h1
    rcases hop : op attempt with e | a
    · by_cases hstop : attempt = M ∨ retryable e = false
      · have hgo : withRetryGo op retryable M base maxD attempt (fuel + 1) =
            (.failed e, 1, []) := by
          simp only [withRetryGo, hop]
          rw [if_pos hstop]
        rw [hgo]
        dsimp only
        refine ⟨by omega, rfl, ?_, ?_, ?_, ?_, ?_, ?_⟩
        · intro i hi
          simp at hi
        · intro k hk hk2
          omega
        · intro e2 he2
          simp only [RetryOutcome.failed.injEq] at he2
          subst he2
          refine ⟨by simpa using hop, ?_⟩
          rcases hstop with hstop | hstop
          · right; omega
          · left; exact hstop
        · intro a ha
          simp at ha
        · simp
        · intro _
          omega
      · have hgo : withRetryGo op retryable M base maxD attempt (fuel + 1) =
            ((withRetryGo op retryable M base maxD (attempt + 1) fuel).1,
             (withRetryGo op retryable M base maxD (attempt + 1) fuel).2.1 + 1,
             min (base * 2 ^ (attempt - 1)) maxD ::
               (withRetryGo op retryable M base maxD (attempt + 1) fuel).2.2) := by
          simp only [withRetryGo, hop]
          rw [if_neg hstop]
        rw [hgo]
        dsimp only
        push_neg at hstop
        have hM : attempt ≠ M := hstop.1
        have hfuel1 : 1 ≤ fuel := by omega
        have hrec := ih (attempt + 1) (by omega) (by omega)
        have hrec1 : 1 ≤ (withRetryGo op retryable M base maxD (attempt + 1)
            fuel).2.1 := hrec.2.2.2.2.2.2.2 hfuel1
        refine ⟨by omega, ?_, ?_, ?_, ?_, ?_, ?_, ?_⟩
        · simp only [List.length_cons]
          omega
        · intro i hi
          cases i with
          | zero =>
            simp only [List.getD_cons_zero]
            norm_num
          | succ i =>
            simp only [List.length_cons] at hi
            simp only [List.getD_cons_succ]
            rw [hrec.2.2.1 i (by omega)]
            have hexp : attempt + 1 - 1 + i = attempt - 1 + (i + 1) := by omega
            rw [hexp]
        · intro k hk hk2
          rcases Nat.eq_or_lt_of_le hk with rfl | hk3
          · exact ⟨e, hop, by simpa using hstop.2⟩
          · exact hrec.2.2.2.1 k (by omega) (by omega)
        · intro e2 he2
          have hthis := hrec.2.2.2.2.1 e2 he2
          constructor
          · convert hthis.1 using 2
            omega
          · rcases hthis.2 with h | h
            · left; exact h
            · right; omega
        · intro a2 ha2
          have hthis := hrec.2.2.2.2.2.1 a2 ha2
          convert hthis using 2
          omega
        · have h7 := hrec.2.2.2.2.2.2.1
          constructor
          · intro hlf
            exact absurd (h7.mp hlf) (by omega)
          · intro hf
            omega
        · intro _
          omega
    · have hgo : withRetryGo op retryable M base maxD attempt (fuel + 1) =
          (.ok a, 1, []) := by
        simp only [withRetryGo, hop]
      rw [hgo]
      dsimp only
      refine ⟨by omega, rfl, ?_, ?_, ?_, ?_, ?_, ?_⟩
      · intro i hi
        simp at hi
      · intro k hk hk2
        simp at hk2
        omega
      · intro e2 he2
        simp at he2
      · intro a2 ha2
        simp only [RetryOutcome.ok.injEq] at ha2
        subst ha2
        simpa using hop
      · simp
      · intro _
        omega

/-- C9: `withRetry` invokes the operation at most `maxAttempts` times; the
k-th back-off (slept after failed attempt `k`, before attempt `k + 1`) is
exactly `min(baseDelay * 2^(k-1), maxDelay)`; a retry happens only when the
failed attempt threw a retryable error; a failure outcome is the last thrown
error, rethrown unchanged, which was non-retryable or occurred on the final
permitted attempt. The default predicate accepts exactly `Error` values whose
message contains one of the transport patterns case-insensitively, and
rejects non-`Error` throws. -/
theorem withRetry_spec {E A : Type} (op : Nat → Except E A)
    (retryable : E → Bool) (maxAttempts baseDelay maxDelay : Nat) :
    (withRetry op retryable maxAttempts baseDelay maxDelay).2.1 ≤ maxAttempts ∧
    (withRetry op retryable maxAttempts baseDelay maxDelay).2.2.length =
      (withRetry op retryable maxAttempts baseDelay maxDelay).2.1 - 1 ∧
    (∀ i, i < (withRetry op retryable maxAttempts baseDelay maxDelay).2.2.length →
      (withRetry op retryable maxAttempts baseDelay maxDelay).2.2.getD i 0 =
        min (baseDelay * 2 ^ i) maxDelay) ∧
    (∀ k, 1 ≤ k →
      k < (withRetry op retryable maxAttempts baseDelay maxDelay).2.1 →
      ∃ e, op k = .error e ∧ retryable e = true) ∧
    (∀ e, (withRetry op retryable maxAttempts baseDelay maxDelay).1 = .failed e →
      op (withRetry op retryable maxAttempts baseDelay maxDelay).2.1 = .error e ∧
      (retryable e = false ∨
        (withRetry op retryable maxAttempts baseDelay maxDelay).2.1 =
          maxAttempts)) ∧
    (∀ a, (withRetry op retryable maxAttempts baseDelay maxDelay).1 = .ok a →
      op (withRetry op retryable maxAttempts baseDelay maxDelay).2.1 = .ok a) ∧
    ((withRetry op retryable maxAttempts baseDelay maxDelay).1 = .logicFailed ↔
      maxAttempts = 0) ∧
    (∀ msg, defaultRetryable (.errorObj msg) = true ↔
      ∃ p ∈ retryablePatterns,
        ∃ l₁ l₂, toLowerCase msg = l₁ ++ toLowerCase p ++ l₂) ∧
    defaultRetryable .nonError = false := by
  have h := withRetryGo_spec op retryable maxAttempts baseDelay maxDelay
    maxAttempts 1 (by omega) (le_refl 1)
  unfold withRetry
  refine ⟨h.1, h.2.1, ?_, ?_, ?_, ?_, ?_, ?_, rfl⟩
  · intro i hi
    simpa using h.2.2.1 i hi
  · intro k hk hk2
    exact h.2.2.2.1 k hk (by omega)
  · intro e he
    have := h.2.2.2.2.1 e he
    refine ⟨?_, ?_⟩
    · convert this.1 using 2
      omega
    · rcases this.2 with h2 | h2
      · left; exact h2
      · right; omega
  · intro a ha
    have := h.2.2.2.2.2.1 a ha
    convert this using 2
    omega
  · exact h.2.2.2.2.2.2.1
  · intro msg
    unfold defaultRetryable
    rw [List.any_eq_true]
    constructor
    · rintro ⟨p, hp, hinc⟩
      exact ⟨p, hp, (listIncludes_iff _ _).mp hinc⟩
    · rintro ⟨p, hp, hdec⟩
      exact ⟨p, hp, (listIncludes_iff _ _).mpr hdec⟩

/-- Witness for `withRetry_spec`: a run of three attempts all failing with a
connection reset backs off 1000 ms then 2000 ms and rethrows the last error. -/
theorem withRetry_spec_witness :
    (withRetry (fun _ =>
        (Except.error (JsError.errorObj (jsStr "ECONNRESET boom")) :
        Except JsError Nat)) defaultRetryable 3 1000 30000).2.2.getD 1 0 =
      min (1000 * 2 ^ 1) 30000 :=
  (withRetry_spec (fun _ =>
      (Except.error (JsError.errorObj (jsStr "ECONNRESET boom")) :
      Except JsError Nat)) defaultRetryable 3 1000 30000).2.2.1 1 (by decide)

end Retry

section BinaryModsBackup

theorem string_append_ne_self (a b : String) (hb : b ≠ "") : a ++ b ≠ a := by
  intro h
  have hlen := congrArg String.length h
  rw [String.length_append] at hlen
  have hbpos : 0 < b.length := by
    cases b with
    | mk data =>
      cases data with
      | nil => exact absurd rfl hb
      | cons x t => simp [String.length]
  omega

theorem string_append_left_cancel {a b c : String} (h : a ++ b = a ++ c) :
    b = c := by
  have hd := congrArg String.data h
  simp only [String.data_append] at hd
  exact String.ext (List.append_cancel_left hd)

/-- C8 (amended): on an invocation that is not short-circuited by the flag
file, `applyBinaryMods` unconditionally copies the current file over
`path + ".bak"` — overwriting any existing backup rather than restoring from
it — and then reads and patches the current file contents. -/
theorem applyBinaryMods_always_backs_up (hasTarget : Bytes → Bool)
    (flagBytes : Bytes) (fs : Fs) (clientPath flagSuffix : String)
    (origDomain targetDomain oldDiscord newDiscord : JsStr) (data : Bytes)
    (hflag : ∀ c, fsRead fs (clientPath ++ flagSuffix) = some c →
      hasTarget c = false)
    (hdata : fsRead fs clientPath = some data)
    (hsuffix1 : flagSuffix ≠ ".bak") (hsuffix2 : flagSuffix ≠ "") :
    ∃ fs', GamePatcher.applyBinaryMods hasTarget flagBytes fs clientPath
        flagSuffix origDomain targetDomain oldDiscord newDiscord = some fs' ∧
      fsRead fs' (clientPath ++ ".bak") = some data ∧
      fsRead fs' clientPath = some (GamePatcher.replaceBinaryStrings data
        (GamePatcher.clientModifications origDomain targetDomain oldDiscord
          newDiscord)).1 := by
  have hbakne : clientPath ++ ".bak" ≠ clientPath :=
    string_append_ne_self clientPath ".bak" (by decide)
  have htrackne : clientPath ++ flagSuffix ≠ clientPath ++ ".bak" := by
    intro h
    exact hsuffix1 (string_append_left_cancel h)
  have htrackne2 : clientPath ++ flagSuffix ≠ clientPath :=
    string_append_ne_self clientPath flagSuffix hsuffix2
  simp only [GamePatcher.applyBinaryMods]
  have halready :
      (match fsRead fs (clientPath ++ flagSuffix) with
        | some content => hasTarget content
        | none => false) = false := by
    rcases htf : fsRead fs (clientPath ++ flagSuffix) with _ | c
    · rfl
    · exact hflag c htf
  rw [halready]
  simp only [Bool.false_eq_true, if_false]
  rw [hdata]
  have hread1 : fsRead (fsWrite fs (clientPath ++ ".bak") data) clientPath =
      some data := by
    rw [fsRead_fsWrite_ne fs (clientPath ++ ".bak") clientPath data
      (Ne.symm hbakne)]
    exact hdata
  rw [hread1]
  refine ⟨_, rfl, ?_, ?_⟩
  · rw [fsRead_fsWrite_ne _ (clientPath ++ flagSuffix) (clientPath ++ ".bak")
      flagBytes (Ne.symm htrackne)]
    rw [fsRead_fsWrite_ne _ clientPath (clientPath ++ ".bak") _ hbakne]
    exact fsRead_fsWrite_self fs (clientPath ++ ".bak") data
  · rw [fsRead_fsWrite_ne _ (clientPath ++ flagSuffix) clientPath flagBytes
      (Ne.symm htrackne2)]
    exact fsRead_fsWrite_self _ clientPath _

/-- Witness for `applyBinaryMods_always_backs_up`: a concrete state with an
existing (different) backup; the run succeeds and the backup ends up equal to
the current file contents. -/
theorem applyBinaryMods_always_backs_up_witness :
    ∃ fs', GamePatcher.applyBinaryMods (fun _ => false) [7]
        [("c", [9, 9]), ("c.bak", [1, 2, 3]), ("c.flag", [1])] "c" ".flag"
        (jsStr "a.b") (jsStr "c.d") (jsStr "x") (jsStr "y") = some fs' ∧
      fsRead fs' ("c" ++ ".bak") = some [9, 9] ∧
      fsRead fs' "c" = some (GamePatcher.replaceBinaryStrings [9, 9]
        (GamePatcher.clientModifications (jsStr "a.b") (jsStr "c.d")
          (jsStr "x") (jsStr "y"))).1 :=
  applyBinaryMods_always_backs_up (fun _ => false) [7]
    [("c", [9, 9]), ("c.bak", [1, 2, 3]), ("c.flag", [1])] "c" ".flag"
    (jsStr "a.b") (jsStr "c.d") (jsStr "x") (jsStr "y") [9, 9]
    (fun _ _ => rfl) (by decide) (by decide) (by decide)

/-- Counterexample to C8 as stated: with an existing backup `c.bak` holding
the clean bytes `[1,2,3]` and the current file holding `[9,9]`, the patcher
does not restore from the backup; it overwrites the backup with the current
contents, so after the run both the file and the backup hold `[9,9]`. -/
theorem applyBinaryMods_counterexample :
    (GamePatcher.applyBinaryMods (fun _ => false) [7]
        [("c", [9, 9]), ("c.bak", [1, 2, 3])] "c" ".flag"
        (jsStr "a.b") (jsStr "c.d") (jsStr "x") (jsStr "y")).map
      (fun fs => (fsRead fs "c.bak", fsRead fs "c")) =
      some (some [9, 9], some [9, 9]) ∧
    ([9, 9] : Bytes) ≠ [1, 2, 3] := by
  refine ⟨by decide, by decide⟩

end BinaryModsBackup

section SmartDomain

/-- Counterexample to C6 as stated: take the buffer holding the UTF-16LE stub
`"x.co"` followed by the two bytes `[109, 1]` — the code unit U+016D, which is
not `encode('m') = [109, 0]`. The claim's condition ("the next encoded
character equals `encode(old[-1])`", with the full final code unit checked)
says no replacement may happen, yet the code replaces: only the low byte is
compared. -/
theorem smartDomain_counterexample :
    (GamePatcher.replaceBinaryStrings
        (encodeUtf16 (jsStr "x.co") ++ [109, 1]) [xcomRule]).2 = 1 ∧
    (encodeUtf16 (jsStr "x.co") ++ [109, 1]).drop 8 ≠ encodeUtf16 [109] ∧
    (GamePatcher.replaceBinaryStrings
        (encodeUtf16 (jsStr "x.co") ++ [109, 1]) [xcomRule]).1 ≠
      encodeUtf16 (jsStr "x.co") ++ [109, 1] := by
  refine ⟨by decide, by decide, by decide⟩

end SmartDomain

section CacheGet

/-- C3: `CacheManager.get(url)` returns the cached path exactly when an entry
exists whose on-disk file is readable with the recorded size and SHA-256; on
an entry whose validation fails the entry is removed and the index persisted;
on a valid hit `lastAccessed` is set to now, `accessCount` is incremented, the
index is persisted, and no file is touched; without an entry nothing
changes. -/
theorem cacheGet_spec {H : Type} [DecidableEq H] (sha : Bytes → H)
    (st : CacheState H) (fs : Fs) (url : String) (now : Nat) :
    (∀ p, (CacheManager.get sha st fs url now).1 = some p ↔
      ∃ e, jsMapGet st.index url = some e ∧ p = e.filePath ∧
        ∃ bytes, fsRead fs e.filePath = some bytes ∧ bytes.length = e.size ∧
          sha bytes = e.hash.sha256) ∧
    (∀ e, jsMapGet st.index url = some e →
      (CacheManager.get sha st fs url now).1 = none →
      jsMapGet (CacheManager.get sha st fs url now).2.1.index url = none ∧
      (CacheManager.get sha st fs url now).2.1.savedIndex =
        (CacheManager.get sha st fs url now).2.1.index) ∧
    (∀ e p, jsMapGet st.index url = some e →
      (CacheManager.get sha st fs url now).1 = some p →
      p = e.filePath ∧
      jsMapGet (CacheManager.get sha st fs url now).2.1.index url =
        some { e with lastAccessed := now, accessCount := e.accessCount + 1 } ∧
      (CacheManager.get sha st fs url now).2.1.savedIndex =
        (CacheManager.get sha st fs url now).2.1.index ∧
      (CacheManager.get sha st fs url now).2.2 = fs) ∧
    (jsMapGet st.index url = none →
      CacheManager.get sha st fs url now = (none, st, fs)) := by
  rcases hentry : jsMapGet st.index url with _ | e
  · refine ⟨?_, ?_, ?_, ?_⟩
    · intro p
      simp only [CacheManager.get, hentry]
      constructor
      · intro h; cases h
      · rintro ⟨e, he, _⟩
        exact Option.noConfusion he
    · intro e he
      exact Option.noConfusion he
    · intro e p he
      exact Option.noConfusion he
    · intro _
      simp only [CacheManager.get, hentry]
  · have hrem : CacheManager.remove st fs url =
        (⟨jsMapDelete st.index url, jsMapDelete st.index url⟩,
         fsRemove fs e.filePath) := by
      simp only [CacheManager.remove, hentry]
    rcases hread : fsRead fs e.filePath with _ | bytes
    · have hget : CacheManager.get sha st fs url now =
          (none, ⟨jsMapDelete st.index url, jsMapDelete st.index url⟩,
           fsRemove fs e.filePath) := by
        simp only [CacheManager.get, hentry, hread, hrem]
      refine ⟨?_, ?_, ?_, ?_⟩
      · intro p
        rw [hget]
        constructor
        · intro h; cases h
        · rintro ⟨e2, he2, _, bytes2, hb, _⟩
          simp only [Option.some.injEq] at he2
          subst he2
          rw [hread] at hb
          exact Option.noConfusion hb
      · intro e2 he2 _
        rw [hget]
        exact ⟨jsMapGet_delete_self _ _, rfl⟩
      · intro e2 p he2 hp
        rw [hget] at hp
        cases hp
      · intro hnone
        exact Option.noConfusion hnone
    · by_cases hsize : bytes.length ≠ e.size
      · have hget : CacheManager.get sha st fs url now =
            (none, ⟨jsMapDelete st.index url, jsMapDelete st.index url⟩,
             fsRemove fs e.filePath) := by
          simp only [CacheManager.get, hentry, hread, hrem]
          rw [if_pos hsize]
        refine ⟨?_, ?_, ?_, ?_⟩
        · intro p
          rw [hget]
          constructor
          · intro h; cases h
          · rintro ⟨e2, he2, _, bytes2, hb, hlen, _⟩
            simp only [Option.some.injEq] at he2
            subst he2
            rw [hread] at hb
            simp only [Option.some.injEq] at hb
            subst hb
            exact absurd hlen hsize
        · intro e2 he2 _
          rw [hget]
          exact ⟨jsMapGet_delete_self _ _, rfl⟩
        · intro e2 p he2 hp
          rw [hget] at hp
          cases hp
        · intro hnone
          exact Option.noConfusion hnone
      · push_neg at hsize
        by_cases hsha : sha bytes ≠ e.hash.sha256
        · have hget : CacheManager.get sha st fs url now =
              (none, ⟨jsMapDelete st.index url, jsMapDelete st.index url⟩,
               fsRemove fs e.filePath) := by
            simp only [CacheManager.get, hentry, hread, hrem]
            rw [if_neg (by omega), if_pos hsha]
          refine ⟨?_, ?_, ?_, ?_⟩
          · intro p
            rw [hget]
            constructor
            · intro h; cases h
            · rintro ⟨e2, he2, _, bytes2, hb, _, hsha2⟩
              simp only [Option.some.injEq] at he2
              subst he2
              rw [hread] at hb
              simp only [Option.some.injEq] at hb
              subst hb
              exact absurd hsha2 hsha
          · intro e2 he2 _
            rw [hget]
            exact ⟨jsMapGet_delete_self _ _, rfl⟩
          · intro e2 p he2 hp
            rw [hget] at hp
            cases hp
          · intro hnone
            exact Option.noConfusion hnone
        · push_neg at hsha
          have hget : CacheManager.get sha st fs url now =
              (some e.filePath,
               ⟨jsMapSet st.index url
                  { e with lastAccessed := now, accessCount := e.accessCount + 1 },
                jsMapSet st.index url
                  { e with lastAccessed := now, accessCount := e.accessCount + 1 }⟩,
               fs) := by
            simp only [CacheManager.get, hentry, hread]
            rw [if_neg (by omega), if_neg (by simp [hsha])]
          refine ⟨?_, ?_, ?_, ?_⟩
          · intro p
            rw [hget]
            constructor
            · intro h
              simp only [Option.some.injEq] at h
              exact ⟨e, rfl, h.symm, bytes, hread, hsize, hsha⟩
            · rintro ⟨e2, he2, hp, _⟩
              simp only [Option.some.injEq] at he2
              subst he2
              simpa using hp.symm
          · intro e2 he2 hnone
            rw [hget] at hnone
            cases hnone
          · intro e2 p he2 hp
            simp only [Option.some.injEq] at he2
            subst he2
            rw [hget] at hp ⊢
            simp only [Option.some.injEq] at hp
            subst hp
            exact ⟨rfl, jsMapGet_set_self _ _ _, rfl, rfl⟩
          · intro hnone
            exact Option.noConfusion hnone

/-- Witness for `cacheGet_spec`: a concrete valid hit returns the path and
bumps the bookkeeping. -/
theorem cacheGet_spec_witness :
    ("/c/f1" : String) = "/c/f1" ∧
    jsMapGet (CacheManager.get (H := Bytes) id
        ⟨[("u1", ⟨"u1", "/c/f1", ⟨3, [1, 2, 3]⟩, 0, 10, 3, 0⟩)],
         [("u1", ⟨"u1", "/c/f1", ⟨3, [1, 2, 3]⟩, 0, 10, 3, 0⟩)]⟩
        [("/c/f1", [1, 2, 3])] "u1" 777).2.1.index "u1" =
      some ⟨"u1", "/c/f1", ⟨3, [1, 2, 3]⟩, 0, 777, 3, 1⟩ :=
  have h := (cacheGet_spec (H := Bytes) id
      ⟨[("u1", ⟨"u1", "/c/f1", ⟨3, [1, 2, 3]⟩, 0, 10, 3, 0⟩)],
       [("u1", ⟨"u1", "/c/f1", ⟨3, [1, 2, 3]⟩, 0, 10, 3, 0⟩)]⟩
      [("/c/f1", [1, 2, 3])] "u1" 777).2.2.1
      ⟨"u1", "/c/f1", ⟨3, [1, 2, 3]⟩, 0, 10, 3, 0⟩ "/c/f1" (by decide)
      (by decide)
  ⟨h.1, h.2.1⟩

end CacheGet

section DownloadVerify

/-- Counterexample to C1 as stated: the network path compares only the
SHA-256 digest, never `expected_hash.size`. With an `expected_hash` whose
digest matches the three downloaded bytes but whose `size` field says 4, the
download completes with `success = true` while the file at `dest_path` has
3 ≠ 4 bytes. -/
theorem download_size_counterexample :
    (DownloadManager.download (H := Bytes) id [] "/d"
        (some ⟨4, [1, 2, 3]⟩) (.ok [1, 2, 3]) 0).1.success = true ∧
    fsRead (DownloadManager.download (H := Bytes) id [] "/d"
        (some ⟨4, [1, 2, 3]⟩) (.ok [1, 2, 3]) 0).2 "/d" = some [1, 2, 3] ∧
    ([1, 2, 3] : Bytes).length ≠ (FileHash.mk (H := Bytes) 4 [1, 2, 3]).size := by
  refine ⟨by decide, by decide, by decide⟩

/-- C1 (amended): on the network path, a successful download with
`expected_hash` guarantees the file at `dest_path` is the downloaded byte
stream and its SHA-256 equals `expected_hash.sha256` (the size field is never
compared); on a digest mismatch the result is a failure and the file is
deleted. On the cache-hit path the file equals the cached blob, which matches
the cache entry's recorded size and SHA-256 — not necessarily the task's
`expected_hash`. -/
theorem download_verified_spec {H : Type} [DecidableEq H] (sha : Bytes → H) :
    (∀ (fs : Fs) (destPath : String) (eh : FileHash H) (bytes : Bytes)
        (elapsed : Nat),
      (DownloadManager.download sha fs destPath (some eh) (.ok bytes)
          elapsed).1.success = true →
      sha bytes = eh.sha256 ∧
      fsRead (DownloadManager.download sha fs destPath (some eh) (.ok bytes)
          elapsed).2 destPath = some bytes) ∧
    (∀ (fs : Fs) (destPath : String) (eh : FileHash H) (bytes : Bytes)
        (elapsed : Nat),
      sha bytes ≠ eh.sha256 →
      (DownloadManager.download sha fs destPath (some eh) (.ok bytes)
          elapsed).1.success = false ∧
      fsRead (DownloadManager.download sha fs destPath (some eh) (.ok bytes)
          elapsed).2 destPath = none) ∧
    (∀ (st : CacheState H) (fs : Fs) (url destPath : String)
        (expectedHash : Option (FileHash H)) (now : Nat)
        (netOutcome : Except Unit Bytes) (elapsed : Nat)
        (r : DownloadResult H) (st' : CacheState H) (fs' : Fs),
      DownloadService.executeDownload sha st fs url destPath expectedHash now
          netOutcome elapsed = some (r, st', fs') →
      r.fromCache = true →
      r.success = true ∧
      ∃ e bytes, jsMapGet st.index url = some e ∧
        fsRead fs' destPath = some bytes ∧ bytes.length = e.size ∧
        sha bytes = e.hash.sha256) := by
  refine ⟨?_, ?_, ?_⟩
  · intro fs destPath eh bytes elapsed hsucc
    by_cases hsha : sha bytes = eh.sha256
    · refine ⟨hsha, ?_⟩
      simp only [DownloadManager.download, if_pos hsha]
      exact fsRead_fsWrite_self fs destPath bytes
    · exfalso
      simp [DownloadManager.download, hsha] at hsucc
  · intro fs destPath eh bytes elapsed hsha
    constructor
    · simp [DownloadManager.download, hsha]
    · simp only [DownloadManager.download, if_neg hsha]
      exact fsRead_fsRemove_self _ destPath
  · intro st fs url destPath expectedHash now netOutcome elapsed r st' fs'
      hrun hcache
    have hspec := cacheGet_spec sha st fs url now
    rcases hhit : (CacheManager.get sha st fs url now).1 with _ | cachedPath
    · exfalso
      simp only [DownloadService.executeDownload, hhit] at hrun
      have hfc : r.fromCache = false := by
        rcases netOutcome with e | bytes
        · cases e
          simp only [DownloadManager.download] at hrun
          cases hrun
          rfl
        · rcases expectedHash with _ | eh
          · simp only [DownloadManager.download] at hrun
            cases hrun
            rfl
          · by_cases hsha : sha bytes = eh.sha256
            · simp only [DownloadManager.download, if_pos hsha] at hrun
              cases hrun
              rfl
            · simp only [DownloadManager.download, if_neg hsha] at hrun
              cases hrun
              rfl
      rw [hfc] at hcache
      cases hcache
    · rcases (hspec.1 cachedPath).mp hhit with
        ⟨e, hentry, hpath, bytes, hbytes, hlen, hsha⟩
      have hcachefs : (CacheManager.get sha st fs url now).2.2 = fs :=
        (hspec.2.2.1 e cachedPath hentry hhit).2.2.2
      have hread2 : fsRead (CacheManager.get sha st fs url now).2.2
          cachedPath = some bytes := by
        rw [hcachefs, hpath]
        exact hbytes
      simp only [DownloadService.executeDownload, hhit, hread2] at hrun
      cases hrun
      refine ⟨rfl, e, bytes, hentry, ?_, hlen, hsha⟩
      exact fsRead_fsWrite_self _ destPath bytes

/-- Witness for `download_verified_spec`: a concrete matching download
succeeds with the file in place. -/
theorem download_verified_spec_witness :
    id [5, 6] = (FileHash.mk (H := Bytes) 2 [5, 6]).sha256 ∧
    fsRead (DownloadManager.download (H := Bytes) id [] "/d"
        (some ⟨2, [5, 6]⟩) (.ok [5, 6]) 3).2 "/d" = some [5, 6] :=
  (download_verified_spec (H := Bytes) id).1 [] "/d" ⟨2, [5, 6]⟩ [5, 6] 3
    (by decide)

end DownloadVerify

section Eviction

/-- Key uniqueness of an insertion-ordered map (an invariant of every state a
`Map` can reach). -/
abbrev keysNodup {β : Type} (m : List (String × β)) : Prop :=
  (m.map Prod.fst).Nodup

theorem jsMapGet_of_mem_nodup {β : Type} :
    ∀ {m : List (String × β)}, keysNodup m → ∀ {k : String} {v : β},
      (k, v) ∈ m → jsMapGet m k = some v := by
  intro m
  induction m with
  | nil =>
    intro _ k v hm
    simp at hm
  | cons hd tl ih =>
    intro hnd k v hm
    have hnd2 : hd.1 ∉ tl.map Prod.fst ∧ keysNodup tl := by
      simpa [keysNodup] using hnd
    rcases List.mem_cons.mp hm with rfl | hm2
    · unfold jsMapGet
      rw [List.find?_cons_of_pos _ (by simp)]
      rfl
    · have hkey : k ∈ tl.map Prod.fst := List.mem_map.mpr ⟨(k, v), hm2, rfl⟩
      have hne : hd.1 ≠ k := fun h => hnd2.1 (h ▸ hkey)
      unfold jsMapGet
      rw [List.find?_cons_of_neg _ (by simpa using hne)]
      exact ih hnd2.2 hm2

theorem jsMapDelete_of_key_not_mem {β : Type} {m : List (String × β)}
    {k : String} (h : k ∉ m.map Prod.fst) : jsMapDelete m k = m := by
  unfold jsMapDelete
  apply List.filter_eq_self.mpr
  intro e he
  have : e.1 ≠ k := fun heq => h (heq ▸ List.mem_map.mpr ⟨e, he, rfl⟩)
  simpa using this

theorem keysNodup_of_perm {β : Type} {m l : List (String × β)}
    (hperm : m.Perm l) (hnd : keysNodup m) : keysNodup l :=
  (hperm.map Prod.fst).nodup_iff.mp hnd

theorem keysNodup_delete {β : Type} {m : List (String × β)} (k : String)
    (hnd : keysNodup m) : keysNodup (jsMapDelete m k) := by
  unfold keysNodup jsMapDelete
  exact List.Nodup.sublist ((List.filter_sublist m).map Prod.fst) hnd

theorem jsMapDelete_perm_of_perm {β : Type} {m rest : List (String × β)}
    {u : String} {e : β} (hperm : m.Perm ((u, e) :: rest))
    (hnd : keysNodup m) : (jsMapDelete m u).Perm rest := by
  have hndl : keysNodup ((u, e) :: rest) := keysNodup_of_perm hperm hnd
  have hnotmem : u ∉ rest.map Prod.fst := by
    have h := hndl
    unfold keysNodup at h
    rw [List.map_cons, List.nodup_cons] at h
    exact h.1
  have h2 : (jsMapDelete m u).Perm (jsMapDelete ((u, e) :: rest) u) :=
    hperm.filter _
  have h3 : jsMapDelete ((u, e) :: rest) u = rest := by
    unfold jsMapDelete
    rw [List.filter_cons]
    rw [show (decide ¬(u, e).1 = u) = false from by simp]
    exact jsMapDelete_of_key_not_mem hnotmem
  rwa [h3] at h2

theorem totalSize_perm {H : Type} {m l : List (String × CacheEntry H)}
    (hperm : m.Perm l) : CacheManager.totalSize m = CacheManager.totalSize l :=
  (hperm.map _).sum_eq

theorem totalSize_cons {H : Type} (u : String) (e : CacheEntry H)
    (rest : List (String × CacheEntry H)) :
    CacheManager.totalSize ((u, e) :: rest) =
      e.size + CacheManager.totalSize rest := by
  simp [CacheManager.totalSize]

theorem totalSize_jsMapSet_le {H : Type} :
    ∀ (m : List (String × CacheEntry H)), keysNodup m →
      ∀ (k : String) (v : CacheEntry H),
      CacheManager.totalSize (jsMapSet m k v) ≤
        CacheManager.totalSize m + v.size := by
  intro m
  induction m with
  | nil =>
    intro _ k v
    simp [jsMapSet, CacheManager.totalSize]
  | cons hd tl ih =>
    intro hnd k v
    have hnd2 : hd.1 ∉ tl.map Prod.fst ∧ keysNodup tl := by
      simpa [keysNodup] using hnd
    by_cases hany : ((hd :: tl).any (fun e => e.1 = k)) = true
    · unfold jsMapSet
      rw [if_pos hany]
      by_cases hhd : hd.1 = k
      · have htl : tl.map (fun e : String × CacheEntry H =>
            if e.1 = k then (k, v) else e) = tl := by
          apply List.map_congr_left ?_ |>.trans (List.map_id _)
          intro e he
          have : e.1 ≠ k := fun heq =>
            hnd2.1 (by rw [hhd]; exact heq ▸ List.mem_map.mpr ⟨e, he, rfl⟩)
          simp [this]
        simp only [List.map_cons, if_pos hhd, htl]
        rw [totalSize_cons, totalSize_cons]
        omega
      · simp only [List.map_cons, if_neg hhd]
        have hany2 : (tl.any (fun e => e.1 = k)) = true := by
          rcases List.any_eq_true.mp hany with ⟨e, he, hek⟩
          rcases List.mem_cons.mp he with rfl | he2
          · exact absurd (by simpa using hek) hhd
          · exact List.any_eq_true.mpr ⟨e, he2, hek⟩
        have := ih hnd2.2 k v
        unfold jsMapSet at this
        rw [if_pos hany2] at this
        cases hd with
        | mk hk hv =>
          rw [totalSize_cons, totalSize_cons]
          omega
    · unfold jsMapSet
      rw [if_neg hany]
      apply Nat.le_of_eq
      simp [CacheManager.totalSize]
      omega

/-- The eviction loop removes a prefix of the sorted list: the surviving index
is (a permutation of) the remaining suffix, keys stay unique, and either the
size budget is met or everything was evicted. -/
theorem evictLoop_spec {H : Type} :
    ∀ (l : List (String × CacheEntry H)) (st : CacheState H) (fs : Fs)
      (cs t : Int),
      st.index.Perm l → keysNodup st.index →
      cs = (CacheManager.totalSize st.index : Int) →
      ∃ k, (CacheManager.evictLoop l st fs cs t).1.index.Perm (l.drop k) ∧
        keysNodup (CacheManager.evictLoop l st fs cs t).1.index ∧
        ((CacheManager.totalSize
            (CacheManager.evictLoop l st fs cs t).1.index : Int) ≤ t ∨
          l.drop k = []) := by
  intro l
  induction l with
  | nil =>
    intro st fs cs t hperm hnd hcs
    exact ⟨0, by simpa using hperm, hnd, Or.inr rfl⟩
  | cons hd rest ih =>
    intro st fs cs t hperm hnd hcs
    rcases hd with ⟨u, e⟩
    by_cases hstop : cs ≤ t
    · have hout : CacheManager.evictLoop ((u, e) :: rest) st fs cs t =
          (st, fs) := by
        simp only [CacheManager.evictLoop]
        rw [if_pos hstop]
      refine ⟨0, ?_, ?_, ?_⟩ <;> rw [hout]
      · simpa using hperm
      · exact hnd
      · left
        rw [show (st, fs).1 = st from rfl, ← hcs]
        exact hstop
    · have hmem : (u, e) ∈ st.index := hperm.mem_iff.mpr (by simp)
      have hentry : jsMapGet st.index u = some e :=
        jsMapGet_of_mem_nodup hnd hmem
      have hrem : CacheManager.remove st fs u =
          (⟨jsMapDelete st.index u, jsMapDelete st.index u⟩,
           fsRemove fs e.filePath) := by
        simp only [CacheManager.remove, hentry]
      have hloop : CacheManager.evictLoop ((u, e) :: rest) st fs cs t =
          CacheManager.evictLoop rest
            ⟨jsMapDelete st.index u, jsMapDelete st.index u⟩
            (fsRemove fs e.filePath) (cs - e.size) t := by
        simp only [CacheManager.evictLoop, hentry, hrem]
        rw [if_neg hstop]
      have hperm2 : (jsMapDelete st.index u).Perm rest :=
        jsMapDelete_perm_of_perm hperm hnd
      have hnd2 : keysNodup (jsMapDelete st.index u) :=
        keysNodup_delete u hnd
      have hcs2 : cs - (e.size : Int) =
          (CacheManager.totalSize (jsMapDelete st.index u) : Int) := by
        rw [totalSize_perm hperm2]
        have h1 : CacheManager.totalSize st.index =
            e.size + CacheManager.totalSize rest := by
          rw [totalSize_perm hperm, totalSize_cons]
        rw [hcs, h1]
        push_cast
        ring
      rcases ih ⟨jsMapDelete st.index u, jsMapDelete st.index u⟩
          (fsRemove fs e.filePath) (cs - e.size) t hperm2 hnd2 hcs2 with
        ⟨k, hk1, hk2, hk3⟩
      refine ⟨k + 1, ?_, ?_, ?_⟩
      · rw [hloop]
        simpa using hk1
      · rw [hloop]
        exact hk2
      · rw [hloop]
        simpa using hk3

/-- The comparator of `enforceSizeLimit` as a boolean relation. -/
theorem score_le_trans {H : Type} (a b c : String × CacheEntry H) :
    (decide (CacheManager.score a.2 ≤ CacheManager.score b.2)) = true →
    (decide (CacheManager.score b.2 ≤ CacheManager.score c.2)) = true →
    (decide (CacheManager.score a.2 ≤ CacheManager.score c.2)) = true := by
  simp only [decide_eq_true_eq]
  omega

theorem score_le_total {H : Type} (a b : String × CacheEntry H) :
    ((decide (CacheManager.score a.2 ≤ CacheManager.score b.2)) ||
      (decide (CacheManager.score b.2 ≤ CacheManager.score a.2))) = true := by
  simp only [Bool.or_eq_true, decide_eq_true_eq]
  omega

theorem insertAfterLe_perm {α : Type} (le : α → α → Bool) (a : α) :
    ∀ l : List α, (insertAfterLe le a l).Perm (a :: l) := by
  intro l
  induction l with
  | nil => simp [insertAfterLe]
  | cons b t ih =>
    unfold insertAfterLe
    by_cases hle : le b a = true
    · rw [if_pos hle]
      exact (ih.cons b).trans (List.Perm.swap a b t)
    · rw [if_neg hle]

theorem insertAfterLe_pairwise {α : Type} (le : α → α → Bool)
    (htrans : ∀ a b c, le a b = true → le b c = true → le a c = true)
    (htotal : ∀ a b, (le a b || le b a) = true) (a : α) :
    ∀ l : List α, List.Pairwise (fun x y => le x y = true) l →
      List.Pairwise (fun x y => le x y = true) (insertAfterLe le a l) := by
  intro l
  induction l with
  | nil =>
    intro _
    simp [insertAfterLe]
  | cons b t ih =>
    intro h
    rcases List.pairwise_cons.mp h with ⟨hb, ht⟩
    unfold insertAfterLe
    by_cases hle : le b a = true
    · rw [if_pos hle]
      apply List.pairwise_cons.mpr
      refine ⟨?_, ih ht⟩
      intro x hx
      have hx2 : x ∈ a :: t := (insertAfterLe_perm le a t).mem_iff.mp hx
      rcases List.mem_cons.mp hx2 with rfl | hx3
      · exact hle
      · exact hb x hx3
    · rw [if_neg hle]
      apply List.pairwise_cons.mpr
      refine ⟨?_, h⟩
      intro x hx
      have hab : le a b = true := by
        rcases Bool.or_eq_true_iff.mp (htotal a b) with h2 | h2
        · exact h2
        · exact absurd h2 hle
      rcases List.mem_cons.mp hx with rfl | hx2
      · exact hab
      · exact htrans a b x hab (hb x hx2)

theorem jsSortBy_go {α : Type} (le : α → α → Bool)
    (htrans : ∀ a b c, le a b = true → le b c = true → le a c = true)
    (htotal : ∀ a b, (le a b || le b a) = true) :
    ∀ (l acc : List α), List.Pairwise (fun x y => le x y = true) acc →
      List.Pairwise (fun x y => le x y = true)
        (l.foldl (fun acc a => insertAfterLe le a acc) acc) ∧
      (l.foldl (fun acc a => insertAfterLe le a acc) acc).Perm (acc ++ l) := by
  intro l
  induction l with
  | nil =>
    intro acc hacc
    exact ⟨hacc, by simp⟩
  | cons a t ih =>
    intro acc hacc
    have hstep := ih (insertAfterLe le a acc)
      (insertAfterLe_pairwise le htrans htotal a acc hacc)
    refine ⟨hstep.1, ?_⟩
    have h1 : (insertAfterLe le a acc ++ t).Perm ((a :: acc) ++ t) :=
      (insertAfterLe_perm le a acc).append_right t
    have h2 : ((a :: acc) ++ t).Perm (acc ++ a :: t) := by
      simpa using List.perm_middle.symm
    exact (hstep.2.trans h1).trans h2

theorem jsSortBy_perm {α : Type} (le : α → α → Bool)
    (htrans : ∀ a b c, le a b = true → le b c = true → le a c = true)
    (htotal : ∀ a b, (le a b || le b a) = true) (l : List α) :
    (jsSortBy le l).Perm l := by
  have := (jsSortBy_go le htrans htotal l [] (by simp)).2
  simpa [jsSortBy] using this

theorem jsSortBy_pairwise {α : Type} (le : α → α → Bool)
    (htrans : ∀ a b c, le a b = true → le b c = true → le a c = true)
    (htotal : ∀ a b, (le a b || le b a) = true) (l : List α) :
    List.Pairwise (fun x y => le x y = true) (jsSortBy le l) :=
  (jsSortBy_go le htrans htotal l [] (by simp)).1

/-- `enforceSizeLimit` meets the budget (or empties the index), keeps keys
unique, only ever removes entries, and evicts in ascending score order: every
dropped entry scores no higher than every survivor. -/
theorem enforceSizeLimit_spec {H : Type} (st : CacheState H) (fs : Fs)
    (maxB addB : Nat) (hnd : keysNodup st.index) :
    ((CacheManager.totalSize
        (CacheManager.enforceSizeLimit st fs maxB addB).1.index : Int) ≤
        (maxB : Int) - (addB : Int) ∨
      (CacheManager.enforceSizeLimit st fs maxB addB).1.index = []) ∧
    keysNodup (CacheManager.enforceSizeLimit st fs maxB addB).1.index ∧
    (∀ u2 e2, (u2, e2) ∈ (CacheManager.enforceSizeLimit st fs maxB
        addB).1.index → (u2, e2) ∈ st.index) ∧
    (∀ u e, (u, e) ∈ st.index →
      jsMapGet (CacheManager.enforceSizeLimit st fs maxB addB).1.index u =
        none →
      ∀ u2 e2, (u2, e2) ∈ (CacheManager.enforceSizeLimit st fs maxB
        addB).1.index →
      CacheManager.score e ≤ CacheManager.score e2) := by
  by_cases hfit : (CacheManager.totalSize st.index : Int) ≤
      (maxB : Int) - (addB : Int)
  · have hout : CacheManager.enforceSizeLimit st fs maxB addB = (st, fs) := by
      unfold CacheManager.enforceSizeLimit
      rw [if_pos hfit]
    rw [hout]
    refine ⟨Or.inl hfit, hnd, fun u2 e2 h => h, ?_⟩
    intro u e hmem hnone
    exact absurd (jsMapGet_of_mem_nodup hnd hmem) (by simp [hnone])
  · have hout : CacheManager.enforceSizeLimit st fs maxB addB =
        CacheManager.evictLoop
          (jsSortBy
            (fun a b => decide (CacheManager.score a.2 ≤
              CacheManager.score b.2)) st.index) st fs
          (CacheManager.totalSize st.index) ((maxB : Int) - (addB : Int)) := by
      unfold CacheManager.enforceSizeLimit
      rw [if_neg hfit]
    have hperm : st.index.Perm
        (jsSortBy
          (fun a b => decide (CacheManager.score a.2 ≤
            CacheManager.score b.2)) st.index) :=
      (jsSortBy_perm _ score_le_trans score_le_total st.index).symm
    have hsorted := jsSortBy_pairwise
      (fun a b : String × CacheEntry H =>
        decide (CacheManager.score a.2 ≤ CacheManager.score b.2))
      score_le_trans score_le_total st.index
    rcases evictLoop_spec _ st fs _ _ hperm hnd rfl with ⟨k, hk1, hk2, hk3⟩
    set l := jsSortBy
      (fun a b => decide (CacheManager.score a.2 ≤ CacheManager.score b.2))
      st.index with hl
    rw [hout]
    refine ⟨?_, hk2, ?_, ?_⟩
    · rcases hk3 with h | h
      · exact Or.inl h
      · right
        have := totalSize_perm hk1
        rcases hres : (CacheManager.evictLoop l st fs
            (CacheManager.totalSize st.index)
            ((maxB : Int) - (addB : Int))).1.index with _ | ⟨hd, tl⟩
        · rfl
        · exfalso
          rw [hres, h] at hk1
          have hmem := hk1.mem_iff.mp (show hd ∈ hd :: tl by simp)
          simp at hmem
    · intro u2 e2 hmem
      have h1 : (u2, e2) ∈ l.drop k := hk1.mem_iff.mp hmem
      have h2 : (u2, e2) ∈ l := List.mem_of_mem_drop h1
      exact hperm.mem_iff.mpr h2
    · intro u e hmem hnone
      intro u2 e2 hmem2
      have hdropped1 : (u, e) ∈ l := hperm.mem_iff.mp hmem
      have hdropped2 : (u, e) ∉ l.drop k := by
        intro hin
        exact jsMapGet_none_not_mem hnone e (hk1.mem_iff.mpr hin)
      have hdropped3 : (u, e) ∈ l.take k := by
        rcases List.mem_append.mp
            (by rw [List.take_append_drop k l]; exact hdropped1) with h | h
        · exact h
        · exact absurd h hdropped2
      have hkept : (u2, e2) ∈ l.drop k := hk1.mem_iff.mp hmem2
      have hpw : List.Pairwise
          (fun a b : String × CacheEntry H =>
            (decide (CacheManager.score a.2 ≤ CacheManager.score b.2)) = true)
          (l.take k ++ l.drop k) := by
        rw [List.take_append_drop k l]
        exact hsorted
      have := (List.pairwise_append.mp hpw).2.2 (u, e) hdropped3 (u2, e2) hkept
      simpa using this

/-- Counterexample to C2 as stated: `put` makes room with
`enforceSizeLimit(entry.size)` before inserting, but inserts unconditionally
afterwards. Inserting a 5-byte file into an empty cache with
`maxSizeBytes = 4` leaves `Σ size = 5 > 4`. -/
theorem cachePut_counterexample :
    CacheManager.totalSize
      (CacheManager.put (H := Bytes) ⟨[], []⟩ [("/f", [0, 0, 0, 0, 0])]
        "u" "/f" ⟨5, [9]⟩ 0 4).1.index = 5 ∧
    ¬ (5 ≤ 4) := by
  refine ⟨by decide, by decide⟩

/-- C2 (amended): provided the inserted file's size is at most `max_bytes`
(and the index keys are unique, an invariant of every reachable state), after
`put` the sum of entry sizes is at most `max_bytes`, and eviction keeps the
highest-scoring entries: every pre-existing entry that was dropped scores no
higher than every pre-existing entry that survives. Without the size bound the
claim fails (`cachePut_counterexample`). -/
theorem cachePut_spec {H : Type} (st : CacheState H) (fs : Fs)
    (url filePath : String) (hash : FileHash H) (now maxB : Nat)
    (bytes : Bytes) (hnd : keysNodup st.index)
    (hfile : fsRead fs filePath = some bytes)
    (hsize : bytes.length ≤ maxB) :
    CacheManager.totalSize
      (CacheManager.put st fs url filePath hash now maxB).1.index ≤ maxB ∧
    (∀ u e, (u, e) ∈ st.index → u ≠ url →
      jsMapGet (CacheManager.put st fs url filePath hash now maxB).1.index u =
        none →
      ∀ u2 e2, u2 ≠ url →
        jsMapGet (CacheManager.put st fs url filePath hash now
          maxB).1.index u2 = some e2 →
        CacheManager.score e ≤ CacheManager.score e2) := by
  have hspec := enforceSizeLimit_spec st fs maxB bytes.length hnd
  have hput : CacheManager.put st fs url filePath hash now maxB =
      (⟨jsMapSet (CacheManager.enforceSizeLimit st fs maxB
          bytes.length).1.index url
          ⟨url, filePath, hash, now, now, bytes.length, 0⟩,
        jsMapSet (CacheManager.enforceSizeLimit st fs maxB
          bytes.length).1.index url
          ⟨url, filePath, hash, now, now, bytes.length, 0⟩⟩,
       (CacheManager.enforceSizeLimit st fs maxB bytes.length).2) := by
    simp only [CacheManager.put, hfile]
  constructor
  · rw [hput]
    have hle := totalSize_jsMapSet_le _ hspec.2.1 url
      ⟨url, filePath, hash, now, now, bytes.length, 0⟩
    have hbound : CacheManager.totalSize
        (CacheManager.enforceSizeLimit st fs maxB bytes.length).1.index +
        bytes.length ≤ maxB := by
      rcases hspec.1 with h | h
      · omega
      · rw [h]
        simpa [CacheManager.totalSize] using hsize
    calc CacheManager.totalSize (jsMapSet (CacheManager.enforceSizeLimit st fs
          maxB bytes.length).1.index url
          ⟨url, filePath, hash, now, now, bytes.length, 0⟩)
        ≤ CacheManager.totalSize (CacheManager.enforceSizeLimit st fs maxB
            bytes.length).1.index + bytes.length := hle
      _ ≤ maxB := hbound
  · intro u e hmem hne hnone u2 e2 hne2 hget2
    rw [hput] at hnone hget2
    have hnone2 : jsMapGet (CacheManager.enforceSizeLimit st fs maxB
        bytes.length).1.index u = none := by
      rw [← jsMapGet_set_ne _ url u
        (⟨url, filePath, hash, now, now, bytes.length, 0⟩ : CacheEntry H) hne]
      exact hnone
    have hmem2 : (u2, e2) ∈ (CacheManager.enforceSizeLimit st fs maxB
        bytes.length).1.index :=
      (mem_jsMapSet_of_ne hne2).mp (mem_of_jsMapGet hget2)
    exact hspec.2.2.2 u e hmem hnone2 u2 e2 hmem2

/-- Witness for `cachePut_spec`: inserting a third 3-byte entry into a cache
holding two 3-byte entries under a 7-byte budget evicts the lowest-scored
entry and lands within budget. -/
theorem cachePut_spec_witness :
    CacheManager.totalSize
      (CacheManager.put (H := Bytes)
        ⟨[("u1", ⟨"u1", "/f1", ⟨3, [1]⟩, 0, 10, 3, 0⟩),
          ("u2", ⟨"u2", "/f2", ⟨3, [2]⟩, 0, 10000, 3, 0⟩)],
         [("u1", ⟨"u1", "/f1", ⟨3, [1]⟩, 0, 10, 3, 0⟩),
          ("u2", ⟨"u2", "/f2", ⟨3, [2]⟩, 0, 10000, 3, 0⟩)]⟩
        [("/f3", [1, 1, 1])] "u3" "/f3" ⟨3, [3]⟩ 20000 7).1.index ≤ 7 :=
  (cachePut_spec (H := Bytes)
    ⟨[("u1", ⟨"u1", "/f1", ⟨3, [1]⟩, 0, 10, 3, 0⟩),
      ("u2", ⟨"u2", "/f2", ⟨3, [2]⟩, 0, 10000, 3, 0⟩)],
     [("u1", ⟨"u1", "/f1", ⟨3, [1]⟩, 0, 10, 3, 0⟩),
      ("u2", ⟨"u2", "/f2", ⟨3, [2]⟩, 0, 10000, 3, 0⟩)]⟩
    [("/f3", [1, 1, 1])] "u3" "/f3" ⟨3, [3]⟩ 20000 7 [1, 1, 1]
    (by decide) (by decide) (by decide)).1

end Eviction

section FrameEffect

theorem bufCopy_length (src t : Bytes) (ts : Nat) :
    (bufCopy src t ts).length = t.length :=
  List.length_mapIdx

theorem setByte_length (t : Bytes) (i v : Nat) :
    (setByte t i v).length = t.length :=
  List.length_mapIdx

theorem bufCopy_getD_outside (src t : Bytes) (ts i d : Nat)
    (h : i < ts ∨ ts + src.length ≤ i) :
    (bufCopy src t ts).getD i d = t.getD i d := by
  unfold bufCopy
  rw [List.getD_eq_getElem?_getD, List.getD_eq_getElem?_getD,
    List.getElem?_mapIdx]
  rcases ht : t[i]? with _ | b
  · rfl
  · have hcond : ¬(ts ≤ i ∧ i - ts < src.length) := by omega
    simp [hcond]

theorem setByte_getD_ne (t : Bytes) (i v j d : Nat) (h : j ≠ i) :
    (setByte t i v).getD j d = t.getD j d := by
  unfold setByte
  rw [List.getD_eq_getElem?_getD, List.getD_eq_getElem?_getD,
    List.getElem?_mapIdx]
  rcases ht : t[j]? with _ | b
  · rfl
  · simp [h]

theorem applySimpleGo_length (newBytes : Bytes) :
    ∀ (ps : List Nat) (buf : Bytes),
      (applySimpleGo newBytes buf ps).1.length = buf.length := by
  intro ps
  induction ps with
  | nil => intro buf; rfl
  | cons pos rest ih =>
    intro buf
    show (applySimpleGo newBytes (bufCopy newBytes buf pos) rest).1.length = _
    rw [ih, bufCopy_length]

theorem applySimpleGo_positions (newBytes : Bytes) :
    ∀ (ps : List Nat) (buf : Bytes),
      (applySimpleGo newBytes buf ps).2 = ps := by
  intro ps
  induction ps with
  | nil => intro buf; rfl
  | cons pos rest ih =>
    intro buf
    show pos :: (applySimpleGo newBytes (bufCopy newBytes buf pos) rest).2 = _
    rw [ih]

theorem applySimpleGo_frame (newBytes : Bytes) (i d : Nat) :
    ∀ (ps : List Nat) (buf : Bytes),
      (∀ p ∈ ps, ¬(p ≤ i ∧ i < p + newBytes.length)) →
      (applySimpleGo newBytes buf ps).1.getD i d = buf.getD i d := by
  intro ps
  induction ps with
  | nil => intro buf _; rfl
  | cons pos rest ih =>
    intro buf hps
    show (applySimpleGo newBytes (bufCopy newBytes buf pos) rest).1.getD i d = _
    rw [ih (bufCopy newBytes buf pos) (fun p hp => hps p (by simp [hp]))]
    apply bufCopy_getD_outside
    have := hps pos (by simp)
    omega

theorem applySmartGo_none (newStub : Bytes) (newEnd stubLen : Nat) :
    ∀ (ps : List Nat) (buf : Bytes),
      applySmartGo newStub none newEnd stubLen buf ps = (buf, []) := by
  intro ps
  induction ps with
  | nil => intro buf; rfl
  | cons pos rest ih =>
    intro buf
    unfold applySmartGo
    by_cases hoob : pos + stubLen + 1 > buf.length
    · rw [if_pos hoob]
      exact ih buf
    · rw [if_neg hoob]
      exact ih buf

theorem applySmartGo_length (newStub : Bytes) (oldEnd : Option Nat)
    (newEnd stubLen : Nat) :
    ∀ (ps : List Nat) (buf : Bytes),
      (applySmartGo newStub oldEnd newEnd stubLen buf ps).1.length =
        buf.length := by
  intro ps
  induction ps with
  | nil => intro buf; rfl
  | cons pos rest ih =>
    intro buf
    unfold applySmartGo
    by_cases hoob : pos + stubLen + 1 > buf.length
    · rw [if_pos hoob]
      exact ih buf
    · rw [if_neg hoob]
      rcases oldEnd with _ | c
      · exact ih buf
      · dsimp only
        by_cases hbyte : (buf.getD (pos + stubLen) 0 == c) = true
        · rw [if_pos hbyte]
          show (applySmartGo newStub (some c) newEnd stubLen _ rest).1.length = _
          rw [ih, setByte_length, bufCopy_length]
        · rw [if_neg hbyte]
          exact ih buf

theorem applySmartGo_frame (newStub : Bytes) (c newEnd stubLen L i d : Nat)
    (hnew : newStub.length ≤ L) (hstub : stubLen < L) :
    ∀ (ps : List Nat) (buf : Bytes),
      (∀ p ∈ (applySmartGo newStub (some c) newEnd stubLen buf ps).2,
        ¬(p ≤ i ∧ i < p + L)) →
      (applySmartGo newStub (some c) newEnd stubLen buf ps).1.getD i d =
        buf.getD i d := by
  intro ps
  induction ps with
  | nil => intro buf _; rfl
  | cons pos rest ih =>
    intro buf hps
    unfold applySmartGo at hps ⊢
    by_cases hoob : pos + stubLen + 1 > buf.length
    · rw [if_pos hoob] at hps ⊢
      exact ih buf hps
    · rw [if_neg hoob] at hps ⊢
      dsimp only at hps ⊢
      by_cases hbyte : (buf.getD (pos + stubLen) 0 == c) = true
      · rw [if_pos hbyte] at hps ⊢
        have hpos : ¬(pos ≤ i ∧ i < pos + L) := hps pos (by simp)
        have hrest : ∀ p ∈ (applySmartGo newStub (some c) newEnd stubLen
            (setByte (bufCopy newStub buf pos) (pos + stubLen) newEnd)
            rest).2, ¬(p ≤ i ∧ i < p + L) := by
          intro p hp
          exact hps p (by simp [hp])
        show (applySmartGo newStub (some c) newEnd stubLen _ rest).1.getD i d = _
        rw [ih _ hrest]
        rw [setByte_getD_ne _ _ _ _ _ (by omega)]
        apply bufCopy_getD_outside
        omega
      · rw [if_neg hbyte] at hps ⊢
        exact ih buf hps

theorem encodeUtf16_nil : encodeUtf16 [] = [] := rfl

theorem encodeUtf16_length (s : JsStr) :
    (encodeUtf16 s).length = 2 * s.length := by
  induction s with
  | nil => rfl
  | cons u t ih =>
    show ([u % 256, u / 256 % 256] ++ encodeUtf16 t).length = _
    simp only [List.length_append, List.length_cons, List.length_nil, ih]
    omega

theorem encodeUtf16_dropLast_lt (s : JsStr) (h : s ≠ []) :
    (encodeUtf16 s.dropLast).length < (encodeUtf16 s).length := by
  rw [encodeUtf16_length, encodeUtf16_length, List.length_dropLast]
  have : 0 < s.length := List.length_pos.mpr h
  omega

theorem utf8Char_length_pos (c : Nat) : 0 < (utf8Char c).length := by
  unfold utf8Char
  split_ifs <;> simp

theorem utf8Char_length_big (c : Nat) (h : 0x10000 ≤ c) :
    (utf8Char c).length = 4 := by
  unfold utf8Char
  rw [if_neg (by omega), if_neg (by omega), if_neg (by omega)]
  rfl

theorem stringToUtf8_length_pos (s : JsStr) (h : s ≠ []) :
    0 < (stringToUtf8 s).length := by
  rcases s with _ | ⟨u, _ | ⟨l, rest⟩⟩
  · exact absurd rfl h
  · unfold stringToUtf8
    split_ifs <;> exact utf8Char_length_pos _
  · unfold stringToUtf8
    split_ifs <;>
      simp only [List.length_append] <;>
      have := utf8Char_length_pos 0xFFFD <;>
      have := utf8Char_length_pos u <;>
      have h4 := utf8Char_length_pos
        (0x10000 + (u - 0xD800) * 1024 + (l - 0xDC00)) <;>
      omega

theorem stringToUtf8_cons2 (u l : Nat) (rest2 : List Nat) :
    stringToUtf8 (u :: l :: rest2) =
      if 0xD800 ≤ u ∧ u ≤ 0xDBFF then
        if 0xDC00 ≤ l ∧ l ≤ 0xDFFF then
          utf8Char (0x10000 + (u - 0xD800) * 1024 + (l - 0xDC00)) ++
            stringToUtf8 rest2
        else utf8Char 0xFFFD ++ stringToUtf8 (l :: rest2)
      else if 0xDC00 ≤ u ∧ u ≤ 0xDFFF then
        utf8Char 0xFFFD ++ stringToUtf8 (l :: rest2)
      else utf8Char u ++ stringToUtf8 (l :: rest2) := by
  conv_lhs => rw [stringToUtf8]

theorem stringToUtf8_dropLast_lt :
    ∀ s : JsStr, s ≠ [] →
      (stringToUtf8 s.dropLast).length < (stringToUtf8 s).length := by
  intro s
  induction s using stringToUtf8.induct with
  | case1 =>
    intro h
    exact absurd rfl h
  | case2 u hu =>
    intro _
    show (stringToUtf8 []).length < (stringToUtf8 [u]).length
    have := stringToUtf8_length_pos [u] (by simp)
    simpa using this
  | case3 u hu =>
    intro _
    show (stringToUtf8 []).length < (stringToUtf8 [u]).length
    have := stringToUtf8_length_pos [u] (by simp)
    simpa using this
  | case4 u l rest2 hu hl ih =>
    intro _
    have hfs : stringToUtf8 (u :: l :: rest2) =
        utf8Char (0x10000 + (u - 0xD800) * 1024 + (l - 0xDC00)) ++
          stringToUtf8 rest2 := by
      rw [stringToUtf8_cons2, if_pos hu, if_pos hl]
    have h4 : (utf8Char (0x10000 + (u - 0xD800) * 1024 +
        (l - 0xDC00))).length = 4 := utf8Char_length_big _ (by omega)
    rcases rest2 with _ | ⟨r, rest3⟩
    · have hdl : (u :: l :: ([] : JsStr)).dropLast = [u] := rfl
      rw [hdl, hfs]
      have hfu : stringToUtf8 [u] = utf8Char 0xFFFD := by
        unfold stringToUtf8
        rw [if_pos (Or.inl hu)]
      rw [hfu]
      have h3 : (utf8Char 0xFFFD).length = 3 := rfl
      simp only [List.length_append, h3, h4]
      simp [stringToUtf8]
    · have hdl : (u :: l :: r :: rest3).dropLast =
          u :: l :: (r :: rest3).dropLast := by
        rw [List.dropLast_cons₂, List.dropLast_cons₂]
      rw [hdl, hfs]
      have hfs2 : stringToUtf8 (u :: l :: (r :: rest3).dropLast) =
          utf8Char (0x10000 + (u - 0xD800) * 1024 + (l - 0xDC00)) ++
            stringToUtf8 (r :: rest3).dropLast := by
        rw [stringToUtf8_cons2, if_pos hu, if_pos hl]
      rw [hfs2]
      simp only [List.length_append, h4]
      have := ih (by simp)
      omega
  | case5 u l rest2 hu hl ih =>
    intro _
    have hfs : stringToUtf8 (u :: l :: rest2) =
        utf8Char 0xFFFD ++ stringToUtf8 (l :: rest2) := by
      rw [stringToUtf8_cons2, if_pos hu, if_neg hl]
    rcases rest2 with _ | ⟨r, rest3⟩
    · have hdl : (u :: l :: ([] : JsStr)).dropLast = [u] := rfl
      rw [hdl, hfs]
      have hfu : stringToUtf8 [u] = utf8Char 0xFFFD := by
        unfold stringToUtf8
        rw [if_pos (Or.inl hu)]
      rw [hfu]
      simp only [List.length_append]
      have := stringToUtf8_length_pos [l] (by simp)
      omega
    · have hdl : (u :: l :: r :: rest3).dropLast =
          u :: (l :: r :: rest3).dropLast := List.dropLast_cons₂
      rw [hdl, hfs]
      have hdl2 : (l :: r :: rest3).dropLast = l :: (r :: rest3).dropLast :=
        List.dropLast_cons₂
      have hfs2 : stringToUtf8 (u :: (l :: r :: rest3).dropLast) =
          utf8Char 0xFFFD ++ stringToUtf8 (l :: r :: rest3).dropLast := by
        rw [hdl2]
        rw [stringToUtf8_cons2, if_pos hu, if_neg hl]
      rw [hfs2]
      simp only [List.length_append]
      have := ih (by simp)
      omega
  | case6 u l rest2 hu hlow ih =>
    intro _
    have hfs : stringToUtf8 (u :: l :: rest2) =
        utf8Char 0xFFFD ++ stringToUtf8 (l :: rest2) := by
      rw [stringToUtf8_cons2, if_neg hu, if_pos hlow]
    rcases rest2 with _ | ⟨r, rest3⟩
    · have hdl : (u :: l :: ([] : JsStr)).dropLast = [u] := rfl
      rw [hdl, hfs]
      have hfu : stringToUtf8 [u] = utf8Char 0xFFFD := by
        unfold stringToUtf8
        rw [if_pos (Or.inr hlow)]
      rw [hfu]
      simp only [List.length_append]
      have := stringToUtf8_length_pos [l] (by simp)
      omega
    · have hdl : (u :: l :: r :: rest3).dropLast =
          u :: (l :: r :: rest3).dropLast := List.dropLast_cons₂
      rw [hdl, hfs]
      have hdl2 : (l :: r :: rest3).dropLast = l :: (r :: rest3).dropLast :=
        List.dropLast_cons₂
      have hfs2 : stringToUtf8 (u :: (l :: r :: rest3).dropLast) =
          utf8Char 0xFFFD ++ stringToUtf8 (l :: r :: rest3).dropLast := by
        rw [hdl2]
        rw [stringToUtf8_cons2, if_neg hu, if_pos hlow]
      rw [hfs2]
      simp only [List.length_append]
      have := ih (by simp)
      omega
  | case7 u l rest2 hu hlow ih =>
    intro _
    have hfs : stringToUtf8 (u :: l :: rest2) =
        utf8Char u ++ stringToUtf8 (l :: rest2) := by
      rw [stringToUtf8_cons2, if_neg hu, if_neg hlow]
    rcases rest2 with _ | ⟨r, rest3⟩
    · have hdl : (u :: l :: ([] : JsStr)).dropLast = [u] := rfl
      rw [hdl, hfs]
      have hfu : stringToUtf8 [u] = utf8Char u := by
        unfold stringToUtf8
        rw [if_neg (by tauto)]
      rw [hfu]
      simp only [List.length_append]
      have := stringToUtf8_length_pos [l] (by simp)
      omega
    · have hdl : (u :: l :: r :: rest3).dropLast =
          u :: (l :: r :: rest3).dropLast := List.dropLast_cons₂
      rw [hdl, hfs]
      have hdl2 : (l :: r :: rest3).dropLast = l :: (r :: rest3).dropLast :=
        List.dropLast_cons₂
      have hfs2 : stringToUtf8 (u :: (l :: r :: rest3).dropLast) =
          utf8Char u ++ stringToUtf8 (l :: r :: rest3).dropLast := by
        rw [hdl2]
        rw [stringToUtf8_cons2, if_neg hu, if_neg hlow]
      rw [hfs2]
      simp only [List.length_append]
      have := ih (by simp)
      omega

theorem stringToUtf8_nil : stringToUtf8 [] = [] := rfl

theorem encodeStr_nil (encoding : Encoding) : encodeStr encoding [] = [] := by
  cases encoding <;> rfl

theorem encodeStr_dropLast_lt (encoding : Encoding) (s : JsStr) (h : s ≠ []) :
    (encodeStr encoding s.dropLast).length < (encodeStr encoding s).length := by
  cases encoding
  · exact stringToUtf8_dropLast_lt s h
  · exact encodeUtf16_dropLast_lt s h

theorem applyRuleCore_spec (enc : JsStr → Bytes)
    (hencNil : enc [] = [])
    (hencDrop : ∀ s : JsStr, s ≠ [] → (enc s.dropLast).length < (enc s).length)
    (buf : Bytes) (r : ReplacementRule)
    (hlen : (enc r.oldVal).length = (enc r.newVal).length) :
    (applyRuleCore enc buf r).1.length = buf.length ∧
    ∀ i d, (∀ p ∈ (applyRuleCore enc buf r).2,
        ¬(p ≤ i ∧ i < p + (enc r.oldVal).length)) →
      (applyRuleCore enc buf r).1.getD i d = buf.getD i d := by
  rcases r with ⟨kind, oldVal, newVal⟩
  dsimp only at hlen ⊢
  cases kind with
  | simple =>
    have hrule : applyRuleCore enc buf ⟨.simple, oldVal, newVal⟩ =
        applySimpleGo (enc newVal) buf (getPatternIndices buf (enc oldVal)) := rfl
    rw [hrule]
    constructor
    · exact applySimpleGo_length _ _ _
    · intro i d hp
      apply applySimpleGo_frame
      intro p hpmem
      have h1 := hp p (by rw [applySimpleGo_positions]; exact hpmem)
      rw [← hlen]
      exact h1
  | smartDomain =>
    rcases hlast : oldVal.getLast? with _ | c
    · have hrule : applyRuleCore enc buf ⟨.smartDomain, oldVal, newVal⟩ =
          (buf, []) := by
        unfold applyRuleCore
        dsimp only
        rw [hlast]
        exact applySmartGo_none _ _ _ _ _
      rw [hrule]
      exact ⟨rfl, fun i d _ => rfl⟩
    · have hold : oldVal ≠ [] := by
        intro h
        subst h
        simp at hlast
      have hstub : (enc oldVal.dropLast).length < (enc oldVal).length :=
        hencDrop oldVal hold
      have hnew : (enc newVal.dropLast).length ≤ (enc oldVal).length := by
        by_cases hnv : newVal = []
        · subst hnv
          simp [hencNil]
        · have := hencDrop newVal hnv
          omega
      have hrule : applyRuleCore enc buf ⟨.smartDomain, oldVal, newVal⟩ =
          applySmartGo (enc newVal.dropLast) (some c) ((newVal.getLast?).getD 0)
            (enc oldVal.dropLast).length buf
            (getPatternIndices buf (enc oldVal.dropLast)) := by
        unfold applyRuleCore
        dsimp only
        rw [hlast]
      rw [hrule]
      constructor
      · exact applySmartGo_length _ _ _ _ _ _
      · intro i d hp
        exact applySmartGo_frame _ _ _ _ _ _ _ hnew hstub _ _ hp

theorem replaceCore_spec (enc : JsStr → Bytes)
    (hencNil : enc [] = [])
    (hencDrop : ∀ s : JsStr, s ≠ [] → (enc s.dropLast).length < (enc s).length) :
    ∀ (rules : List ReplacementRule) (buf : Bytes),
      (∀ r ∈ rules, (enc r.oldVal).length = (enc r.newVal).length) →
      (replaceBinaryStringsCore enc buf rules).1.length = buf.length ∧
      ∀ i d, (∀ q ∈ (replaceBinaryStringsCore enc buf rules).2,
          ¬(q.1 ≤ i ∧ i < q.1 + q.2)) →
        (replaceBinaryStringsCore enc buf rules).1.getD i d = buf.getD i d := by
  intro rules
  induction rules with
  | nil => exact fun buf _ => ⟨rfl, fun i d _ => rfl⟩
  | cons r rest ih =>
    intro buf hlens
    have hr := applyRuleCore_spec enc hencNil hencDrop buf r (hlens r (by simp))
    have hrest := ih (applyRuleCore enc buf r).1
      (fun r' hr' => hlens r' (by simp [hr']))
    have hcore : replaceBinaryStringsCore enc buf (r :: rest) =
        ((replaceBinaryStringsCore enc (applyRuleCore enc buf r).1 rest).1,
          (applyRuleCore enc buf r).2.map (fun p => (p, (enc r.oldVal).length)) ++
            (replaceBinaryStringsCore enc (applyRuleCore enc buf r).1 rest).2) :=
      rfl
    rw [hcore]
    constructor
    · dsimp only
      rw [hrest.1, hr.1]
    · intro i d hq
      dsimp only at hq ⊢
      have hq2 : ∀ q ∈
          (replaceBinaryStringsCore enc (applyRuleCore enc buf r).1 rest).2,
          ¬(q.1 ≤ i ∧ i < q.1 + q.2) := by
        intro q hmem
        exact hq q (by simp [hmem])
      rw [hrest.2 i d hq2]
      apply hr.2
      intro p hpmem
      have hregion := hq (p, (enc r.oldVal).length)
        (List.mem_append_left _ (List.mem_map_of_mem _ hpmem))
      simpa using hregion

/-- **C7.** For every input buffer and every list of replacement rules whose
old and new strings share encoded length, `replaceBinaryStrings` returns a
buffer of unchanged length whose bytes outside the replaced match regions
equal the corresponding input bytes: stated for the server patcher's
`replaceBinaryStrings` under either encoding, and for the game patcher's
UTF-16LE variant when the encoding is `utf16`. -/
theorem replaceBinaryStrings_frame (encoding : Encoding) (buf : Bytes)
    (rules : List ReplacementRule)
    (hlen : ∀ r ∈ rules,
      (encodeStr encoding r.oldVal).length =
        (encodeStr encoding r.newVal).length) :
    ((ServerPatcher.replaceBinaryStrings buf rules encoding).1.length =
        buf.length ∧
      ∀ i d, (∀ q ∈ ServerPatcher.replacedRegions buf rules encoding,
          ¬(q.1 ≤ i ∧ i < q.1 + q.2)) →
        (ServerPatcher.replaceBinaryStrings buf rules encoding).1.getD i d =
          buf.getD i d) ∧
    (encoding = Encoding.utf16 →
      (GamePatcher.replaceBinaryStrings buf rules).1.length = buf.length ∧
      ∀ i d, (∀ q ∈ GamePatcher.replacedRegions buf rules,
          ¬(q.1 ≤ i ∧ i < q.1 + q.2)) →
        (GamePatcher.replaceBinaryStrings buf rules).1.getD i d =
          buf.getD i d) := by
  have hmain := replaceCore_spec (encodeStr encoding) (encodeStr_nil encoding)
    (encodeStr_dropLast_lt encoding) rules buf hlen
  constructor
  · exact hmain
  · intro he
    subst he
    exact hmain

theorem replaceBinaryStrings_frame_witness :
    (∀ r ∈ [(⟨RuleKind.smartDomain, jsStr "hytale.com", jsStr "sanasol.ws"⟩ :
        ReplacementRule)],
      (encodeStr Encoding.utf16 r.oldVal).length =
        (encodeStr Encoding.utf16 r.newVal).length) ∧
    (((ServerPatcher.replaceBinaryStrings (encodeUtf16 (jsStr "hytale.com!"))
          [⟨RuleKind.smartDomain, jsStr "hytale.com", jsStr "sanasol.ws"⟩]
          Encoding.utf16).1.length =
        (encodeUtf16 (jsStr "hytale.com!")).length ∧
      ∀ i d, (∀ q ∈ ServerPatcher.replacedRegions
            (encodeUtf16 (jsStr "hytale.com!"))
            [⟨RuleKind.smartDomain, jsStr "hytale.com", jsStr "sanasol.ws"⟩]
            Encoding.utf16,
          ¬(q.1 ≤ i ∧ i < q.1 + q.2)) →
        (ServerPatcher.replaceBinaryStrings (encodeUtf16 (jsStr "hytale.com!"))
            [⟨RuleKind.smartDomain, jsStr "hytale.com", jsStr "sanasol.ws"⟩]
            Encoding.utf16).1.getD i d =
          (encodeUtf16 (jsStr "hytale.com!")).getD i d) ∧
    (Encoding.utf16 = Encoding.utf16 →
      (GamePatcher.replaceBinaryStrings (encodeUtf16 (jsStr "hytale.com!"))
          [⟨RuleKind.smartDomain, jsStr "hytale.com", jsStr "sanasol.ws"⟩]).1.length =
        (encodeUtf16 (jsStr "hytale.com!")).length ∧
      ∀ i d, (∀ q ∈ GamePatcher.replacedRegions
            (encodeUtf16 (jsStr "hytale.com!"))
            [⟨RuleKind.smartDomain, jsStr "hytale.com", jsStr "sanasol.ws"⟩],
          ¬(q.1 ≤ i ∧ i < q.1 + q.2)) →
        (GamePatcher.replaceBinaryStrings (encodeUtf16 (jsStr "hytale.com!"))
            [⟨RuleKind.smartDomain, jsStr "hytale.com", jsStr "sanasol.ws"⟩]).1.getD
            i d =
          (encodeUtf16 (jsStr "hytale.com!")).getD i d)) :=
  ⟨by decide,
    replaceBinaryStrings_frame Encoding.utf16
      (encodeUtf16 (jsStr "hytale.com!"))
      [⟨RuleKind.smartDomain, jsStr "hytale.com", jsStr "sanasol.ws"⟩]
      (by decide)⟩

end FrameEffect

section SmartDomainCharacterization

theorem spliceBytes_length (buf : Bytes) (p : Nat) (data : Bytes) :
    (spliceBytes buf p data).length = buf.length := by
  unfold spliceBytes
  simp only [List.length_append, List.length_take, List.length_drop]
  omega

theorem storeByte_length (buf : Bytes) (i v : Nat) :
    (storeByte buf i v).length = buf.length := by
  unfold storeByte
  by_cases h : i < buf.length
  · rw [if_pos h]
    simp only [List.length_append, List.length_take, List.length_drop,
      List.length_cons, List.length_nil]
    omega
  · rw [if_neg h]
    simp only [List.length_append, List.length_take, List.length_drop,
      List.length_nil]
    omega

theorem storeByte_eq_setByte (buf : Bytes) (i v : Nat) :
    storeByte buf i v = setByte buf i v := by
  apply List.ext_getElem?
  intro j
  by_cases hjb : j < buf.length
  · unfold storeByte setByte
    rw [List.getElem?_mapIdx]
    by_cases hji : j < i
    · rw [List.getElem?_append_left (by rw [List.length_take]; omega)]
      rw [List.getElem?_take, if_pos hji]
      rw [List.getElem?_eq_getElem hjb]
      have hne : ¬ (j = i) := by omega
      simp [hne]
    · by_cases hjeq : j = i
      · subst hjeq
        rw [List.getElem?_append_right (by rw [List.length_take]; omega)]
        rw [List.length_take]
        have hmin : min j buf.length = j := by omega
        rw [hmin, Nat.sub_self, if_pos hjb]
        rw [List.getElem?_append_left (by simp)]
        rw [List.getElem?_eq_getElem hjb]
        simp
      · have hij : i < j := by omega
        rw [List.getElem?_append_right (by rw [List.length_take]; omega)]
        rw [List.length_take]
        by_cases hib : i < buf.length
        · have hmin : min i buf.length = i := by omega
          rw [hmin, if_pos hib]
          rw [List.getElem?_append_right (by simp; omega)]
          rw [List.getElem?_drop]
          have hidx : i + 1 + (j - i - List.length [v % 256]) = j := by
            simp only [List.length_cons, List.length_nil]
            omega
          rw [hidx]
          rw [List.getElem?_eq_getElem hjb]
          have hne : ¬ (j = i) := by omega
          simp [hne]
        · omega
  · rw [List.getElem?_eq_none (by rw [storeByte_length]; omega),
      List.getElem?_eq_none (le_of_not_lt (by rw [setByte_length]; omega))]

theorem spliceBytes_eq_bufCopy (buf : Bytes) (p : Nat) (data : Bytes) :
    spliceBytes buf p data = bufCopy data buf p := by
  apply List.ext_getElem?
  intro j
  by_cases hjb : j < buf.length
  · unfold spliceBytes bufCopy
    rw [List.getElem?_mapIdx]
    by_cases hjp : j < p
    · rw [List.getElem?_append_left (by rw [List.length_take]; omega)]
      rw [List.getElem?_take, if_pos hjp]
      rw [List.getElem?_eq_getElem hjb]
      have hcond : ¬ (p ≤ j ∧ j - p < data.length) := by omega
      simp [hcond]
    · rw [List.getElem?_append_right (by rw [List.length_take]; omega)]
      rw [List.length_take]
      have hmin : min p buf.length = p := by omega
      rw [hmin]
      by_cases hjd : j - p < data.length
      · rw [List.getElem?_append_left (by rw [List.length_take]; omega)]
        rw [List.getElem?_take, if_pos (by omega)]
        rw [List.getElem?_eq_getElem hjb,
          List.getElem?_eq_getElem (show j - p < data.length from hjd)]
        have hcond : p ≤ j ∧ j - p < data.length := ⟨by omega, hjd⟩
        simp [hcond, List.getD_eq_getElem?_getD,
          List.getElem?_eq_getElem (show j - p < data.length from hjd)]
      · rw [List.getElem?_append_right (by rw [List.length_take]; omega)]
        rw [List.length_take]
        have hmin2 : min (buf.length - p) data.length = data.length := by omega
        rw [hmin2, List.getElem?_drop]
        have hidx : p + data.length + (j - p - data.length) = j := by omega
        rw [hidx]
        rw [List.getElem?_eq_getElem hjb]
        have hcond : ¬ (p ≤ j ∧ j - p < data.length) := by omega
        simp [hcond]
  · rw [List.getElem?_eq_none (by rw [spliceBytes_length]; omega),
      List.getElem?_eq_none (le_of_not_lt (by rw [bufCopy_length]; omega))]

theorem smartDomainSpec_append (stubNew : Bytes) (oldEnd : Option Nat)
    (newEnd stubLen : Nat) :
    ∀ (ps : List Nat) (buf : Bytes) (acc : List Nat),
      ps.foldl (smartDomainStep stubNew oldEnd newEnd stubLen) (buf, acc) =
        ((smartDomainSpec stubNew oldEnd newEnd stubLen buf ps).1,
          acc ++ (smartDomainSpec stubNew oldEnd newEnd stubLen buf ps).2) := by
  intro ps
  induction ps with
  | nil =>
    intro buf acc
    simp [smartDomainSpec]
  | cons pos rest ih =>
    intro buf acc
    rw [show smartDomainSpec stubNew oldEnd newEnd stubLen buf (pos :: rest) =
        rest.foldl (smartDomainStep stubNew oldEnd newEnd stubLen)
          (smartDomainStep stubNew oldEnd newEnd stubLen (buf, []) pos)
      from rfl]
    rw [show (pos :: rest).foldl
          (smartDomainStep stubNew oldEnd newEnd stubLen) (buf, acc) =
        rest.foldl (smartDomainStep stubNew oldEnd newEnd stubLen)
          (smartDomainStep stubNew oldEnd newEnd stubLen (buf, acc) pos)
      from rfl]
    rcases oldEnd with _ | c
    · rw [show smartDomainStep stubNew none newEnd stubLen (buf, acc) pos =
          (buf, acc) from rfl]
      rw [show smartDomainStep stubNew none newEnd stubLen (buf, []) pos =
          (buf, ([] : List Nat)) from rfl]
      rw [ih buf acc, ih buf []]
      simp
    · by_cases hc : pos + stubLen + 1 ≤ buf.length ∧
          buf.getD (pos + stubLen) 0 = c
      · have hstep : ∀ a : List Nat,
            smartDomainStep stubNew (some c) newEnd stubLen (buf, a) pos =
              (storeByte (spliceBytes buf pos stubNew) (pos + stubLen) newEnd,
                a ++ [pos]) := by
          intro a
          show (if pos + stubLen + 1 ≤ buf.length ∧
              buf.getD (pos + stubLen) 0 = c then _ else _) = _
          rw [if_pos hc]
        rw [hstep acc, hstep []]
        rw [ih _ (acc ++ [pos]), ih _ ([] ++ [pos])]
        simp
      · have hstep : ∀ a : List Nat,
            smartDomainStep stubNew (some c) newEnd stubLen (buf, a) pos =
              (buf, a) := by
          intro a
          show (if pos + stubLen + 1 ≤ buf.length ∧
              buf.getD (pos + stubLen) 0 = c then _ else _) = _
          rw [if_neg hc]
        rw [hstep acc, hstep []]
        rw [ih buf acc, ih buf []]
        simp

theorem applySmartGo_eq_spec (stubNew : Bytes) (oldEnd : Option Nat)
    (newEnd stubLen : Nat) :
    ∀ (ps : List Nat) (buf : Bytes),
      applySmartGo stubNew oldEnd newEnd stubLen buf ps =
        smartDomainSpec stubNew oldEnd newEnd stubLen buf ps := by
  intro ps
  induction ps with
  | nil => intro buf; rfl
  | cons pos rest ih =>
    intro buf
    rw [show smartDomainSpec stubNew oldEnd newEnd stubLen buf (pos :: rest) =
        rest.foldl (smartDomainStep stubNew oldEnd newEnd stubLen)
          (smartDomainStep stubNew oldEnd newEnd stubLen (buf, []) pos)
      from rfl]
    unfold applySmartGo
    rcases oldEnd with _ | c
    · rw [show smartDomainStep stubNew none newEnd stubLen (buf, []) pos =
          (buf, ([] : List Nat)) from rfl]
      by_cases hoob : pos + stubLen + 1 > buf.length
      · rw [if_pos hoob]
        exact ih buf
      · rw [if_neg hoob]
        exact ih buf
    · by_cases hoob : pos + stubLen + 1 > buf.length
      · rw [if_pos hoob]
        rw [show smartDomainStep stubNew (some c) newEnd stubLen (buf, []) pos =
            (buf, ([] : List Nat)) from by
          show (if pos + stubLen + 1 ≤ buf.length ∧
              buf.getD (pos + stubLen) 0 = c then _ else _) = _
          rw [if_neg (fun h => absurd h.1 (by omega))]]
        exact ih buf
      · rw [if_neg hoob]
        dsimp only
        by_cases hbyte : (buf.getD (pos + stubLen) 0 == c) = true
        · rw [if_pos hbyte]
          have hc : pos + stubLen + 1 ≤ buf.length ∧
              buf.getD (pos + stubLen) 0 = c := ⟨by omega, by simpa using hbyte⟩
          rw [show smartDomainStep stubNew (some c) newEnd stubLen
                (buf, []) pos =
              (storeByte (spliceBytes buf pos stubNew) (pos + stubLen) newEnd,
                [pos]) from by
            show (if pos + stubLen + 1 ≤ buf.length ∧
                buf.getD (pos + stubLen) 0 = c then _ else _) = _
            rw [if_pos hc]
            rfl]
          rw [storeByte_eq_setByte, spliceBytes_eq_bufCopy]
          rw [smartDomainSpec_append stubNew (some c) newEnd stubLen rest _
            [pos]]
          rw [ih (setByte (bufCopy stubNew buf pos) (pos + stubLen) newEnd)]
          simp
        · rw [if_neg hbyte]
          have hc : ¬ (pos + stubLen + 1 ≤ buf.length ∧
              buf.getD (pos + stubLen) 0 = c) := by
            intro h
            exact hbyte (by simpa using h.2)
          rw [show smartDomainStep stubNew (some c) newEnd stubLen
                (buf, []) pos = (buf, ([] : List Nat)) from by
            show (if pos + stubLen + 1 ≤ buf.length ∧
                buf.getD (pos + stubLen) 0 = c then _ else _) = _
            rw [if_neg hc]]
          exact ih buf

theorem applyRuleCore_smart_eq (enc : JsStr → Bytes) (buf : Bytes)
    (oldVal newVal : JsStr) :
    applyRuleCore enc buf ⟨RuleKind.smartDomain, oldVal, newVal⟩ =
      smartDomainSpec (enc newVal.dropLast) oldVal.getLast?
        ((newVal.getLast?).getD 0) (enc oldVal.dropLast).length buf
        (getPatternIndices buf (enc oldVal.dropLast)) := by
  rw [show applyRuleCore enc buf ⟨RuleKind.smartDomain, oldVal, newVal⟩ =
      applySmartGo (enc newVal.dropLast) oldVal.getLast?
        ((newVal.getLast?).getD 0) (enc oldVal.dropLast).length buf
        (getPatternIndices buf (enc oldVal.dropLast)) from rfl]
  exact applySmartGo_eq_spec _ _ _ _ _ _

/-- **C6** (amended): for EVERY buffer, every smart-domain rule `old → new`
and every encoder — the rule loop body under an arbitrary encoder, and both
patchers' `replaceBinaryStrings` on such a rule, under both encodings — the
pass equals `smartDomainSpec`, the spec-side fold transcribed from the
corrected description: the candidates are the occurrences of the encoded stub
`encode(old[0..-2])` in the original buffer, scanned left to right carrying
the partially rewritten buffer; a candidate is skipped when
`pos + len(stub) + 1` exceeds the buffer length; otherwise it is replaced
exactly when the old string is non-empty and the SINGLE byte of the current
buffer at `pos + len(stub)` equals `charCodeAt(old[-1])`; a replacement
splices `encode(new[0..-2])` over the match (truncated at the buffer end) and
stores `charCodeAt(new[-1]) mod 256` into that single trailing byte. In
particular under UTF-16LE only the low byte of the final code unit is checked
and rewritten; its high byte is never consulted (`smartDomain_counterexample`
refutes the full-code-unit reading). -/
theorem smartDomain_single_byte :
    (∀ (enc : JsStr → Bytes) (buf : Bytes) (oldVal newVal : JsStr),
      applyRuleCore enc buf ⟨RuleKind.smartDomain, oldVal, newVal⟩ =
        smartDomainSpec (enc newVal.dropLast) oldVal.getLast?
          ((newVal.getLast?).getD 0) (enc oldVal.dropLast).length buf
          (getPatternIndices buf (enc oldVal.dropLast))) ∧
    (∀ (encoding : Encoding) (buf : Bytes) (oldVal newVal : JsStr),
      ServerPatcher.replaceBinaryStrings buf
          [⟨RuleKind.smartDomain, oldVal, newVal⟩] encoding =
        ((smartDomainSpec (encodeStr encoding newVal.dropLast) oldVal.getLast?
            ((newVal.getLast?).getD 0)
            (encodeStr encoding oldVal.dropLast).length buf
            (getPatternIndices buf (encodeStr encoding oldVal.dropLast))).1,
          (smartDomainSpec (encodeStr encoding newVal.dropLast) oldVal.getLast?
            ((newVal.getLast?).getD 0)
            (encodeStr encoding oldVal.dropLast).length buf
            (getPatternIndices buf
              (encodeStr encoding oldVal.dropLast))).2.length)) ∧
    (∀ (buf : Bytes) (oldVal newVal : JsStr),
      GamePatcher.replaceBinaryStrings buf
          [⟨RuleKind.smartDomain, oldVal, newVal⟩] =
        ((smartDomainSpec (encodeUtf16 newVal.dropLast) oldVal.getLast?
            ((newVal.getLast?).getD 0) (encodeUtf16 oldVal.dropLast).length buf
            (getPatternIndices buf (encodeUtf16 oldVal.dropLast))).1,
          (smartDomainSpec (encodeUtf16 newVal.dropLast) oldVal.getLast?
            ((newVal.getLast?).getD 0) (encodeUtf16 oldVal.dropLast).length buf
            (getPatternIndices buf
              (encodeUtf16 oldVal.dropLast))).2.length)) := by
  refine ⟨fun enc buf oldVal newVal =>
    applyRuleCore_smart_eq enc buf oldVal newVal, ?_, ?_⟩
  · intro encoding buf oldVal newVal
    have h := applyRuleCore_smart_eq (encodeStr encoding) buf oldVal newVal
    have hcore : replaceBinaryStringsCore (encodeStr encoding) buf
        [⟨RuleKind.smartDomain, oldVal, newVal⟩] =
        ((applyRuleCore (encodeStr encoding) buf
            ⟨RuleKind.smartDomain, oldVal, newVal⟩).1,
          (applyRuleCore (encodeStr encoding) buf
              ⟨RuleKind.smartDomain, oldVal, newVal⟩).2.map
            (fun p => (p, (encodeStr encoding oldVal).length)) ++ []) := rfl
    simp only [ServerPatcher.replaceBinaryStrings]
    rw [hcore, h]
    simp
  · intro buf oldVal newVal
    have h := applyRuleCore_smart_eq encodeUtf16 buf oldVal newVal
    have hcore : replaceBinaryStringsCore encodeUtf16 buf
        [⟨RuleKind.smartDomain, oldVal, newVal⟩] =
        ((applyRuleCore encodeUtf16 buf
            ⟨RuleKind.smartDomain, oldVal, newVal⟩).1,
          (applyRuleCore encodeUtf16 buf
              ⟨RuleKind.smartDomain, oldVal, newVal⟩).2.map
            (fun p => (p, (encodeUtf16 oldVal).length)) ++ []) := rfl
    simp only [GamePatcher.replaceBinaryStrings]
    rw [hcore, h]
    simp

/-- Witness for `smartDomain_single_byte`: the characterization instantiated
at the claim's own scenario — the rule `x.com → x.ws` on the buffer
`stub("x.co") ++ [109, 7]` — and the spec side evaluated concretely: exactly
one replacement, the low byte rewritten to `charCodeAt('s') = 115`, the high
byte `7` preserved. -/
theorem smartDomain_single_byte_witness :
    GamePatcher.replaceBinaryStrings (encodeUtf16 (jsStr "x.co") ++ [109, 7])
        [⟨RuleKind.smartDomain, jsStr "x.com", jsStr "x.ws"⟩] =
      ((smartDomainSpec (encodeUtf16 (jsStr "x.ws").dropLast)
          (jsStr "x.com").getLast? (((jsStr "x.ws").getLast?).getD 0)
          (encodeUtf16 (jsStr "x.com").dropLast).length
          (encodeUtf16 (jsStr "x.co") ++ [109, 7])
          (getPatternIndices (encodeUtf16 (jsStr "x.co") ++ [109, 7])
            (encodeUtf16 (jsStr "x.com").dropLast))).1,
        (smartDomainSpec (encodeUtf16 (jsStr "x.ws").dropLast)
          (jsStr "x.com").getLast? (((jsStr "x.ws").getLast?).getD 0)
          (encodeUtf16 (jsStr "x.com").dropLast).length
          (encodeUtf16 (jsStr "x.co") ++ [109, 7])
          (getPatternIndices (encodeUtf16 (jsStr "x.co") ++ [109, 7])
            (encodeUtf16 (jsStr "x.com").dropLast))).2.length) ∧
    (smartDomainSpec (encodeUtf16 (jsStr "x.ws").dropLast)
        (jsStr "x.com").getLast? (((jsStr "x.ws").getLast?).getD 0)
        (encodeUtf16 (jsStr "x.com").dropLast).length
        (encodeUtf16 (jsStr "x.co") ++ [109, 7])
        (getPatternIndices (encodeUtf16 (jsStr "x.co") ++ [109, 7])
          (encodeUtf16 (jsStr "x.com").dropLast))).1 =
      encodeUtf16 (jsStr "x.w") ++ [111, 0, 115, 7] :=
  ⟨smartDomain_single_byte.2.2 (encodeUtf16 (jsStr "x.co") ++ [109, 7])
      (jsStr "x.com") (jsStr "x.ws"),
    by decide⟩

end SmartDomainCharacterization

end CDPE
